import Mathlib

/-!
Shallow embedding of PicoOSC (src/PicoOSC-fork/PicoOSC.hpp) and proofs about it.

Modelling conventions:
* A C byte buffer is a `List Nat` whose elements are the byte values; the
  `size` argument of a C function is always the length of the list.
* `std::size_t` values (buffer positions and sizes) are modelled as `Nat`.
  Additions such as `pos + 4` are written without a `% 2^64` reduction:
  in the C abstract machine an object and hence `size` is far below
  `2^64 - 8`, so those additions can never wrap.  The one place where
  64-bit wraparound is reachable is the `static_cast<std::size_t>` of a
  possibly negative `int32_t` (blob sizes); there the cast and the
  subsequent addition are modelled exactly, with an explicit `% 2^64`.
* Signed machine integers (`int32_t`, `int64_t`) are modelled as `Int`,
  with explicit two's-complement conversions to and from their `Nat`
  bit patterns.
* `float`/`double` values are modelled by their IEEE bit patterns
  (`Nat` below `2^32` resp. `2^64`); the source never does floating
  arithmetic on them, it only byte-swaps the patterns via `memcpy`.
* The fixed-capacity arrays of the builders are modelled by the used
  prefix only (a `List Nat`); `mAddressSize` etc. are the list lengths.
  The capacity checks of the source are kept verbatim.
-/

namespace picoosc

/-- Round a position up to the next multiple of 4; the source writes this
as `(x + 3) & ~3`, which on natural numbers equals `(x + 3) / 4 * 4`. -/
def align4 (x : Nat) : Nat := (x + 3) / 4 * 4

/-- `swap_endian` (PicoOSC.hpp L42-L48) instantiated at a 32-bit value.
The C masks and shifts `((v & 0xFF) << 24) | ((v & 0xFF00) << 8) | ...`
are written with division/remainder: each mask isolates one byte lane and
the lanes are disjoint, so the bitwise or is addition. -/
def swap_endian32 (v : Nat) : Nat :=
  v % 256 * 16777216 + v / 256 % 256 * 65536 + v / 65536 % 256 * 256 + v / 16777216 % 256

/-- `swap_endian` (PicoOSC.hpp L50-L59) instantiated at a 64-bit value. -/
def swap_endian64 (v : Nat) : Nat :=
  v % 256 * 72057594037927936 +
  v / 256 % 256 * 281474976710656 +
  v / 65536 % 256 * 1099511627776 +
  v / 16777216 % 256 * 4294967296 +
  v / 4294967296 % 256 * 16777216 +
  v / 1099511627776 % 256 * 65536 +
  v / 281474976710656 % 256 * 256 +
  v / 72057594037927936 % 256

/-- `memcpy` of a 32-bit value into a byte buffer on the little-endian
Pico: least significant byte first. -/
def storeLE32 (x : Nat) : List Nat :=
  [x % 256, x / 256 % 256, x / 65536 % 256, x / 16777216 % 256]

/-- `memcpy` of a 64-bit value into a byte buffer on the little-endian
Pico: least significant byte first. -/
def storeLE64 (x : Nat) : List Nat :=
  [x % 256, x / 256 % 256, x / 65536 % 256, x / 16777216 % 256,
   x / 4294967296 % 256, x / 1099511627776 % 256,
   x / 281474976710656 % 256, x / 72057594037927936 % 256]

/-- The 32-bit value obtained by `memcpy` from four consecutive buffer
bytes on the little-endian Pico. -/
def word32LE (b0 b1 b2 b3 : Nat) : Nat :=
  b0 + b1 * 256 + b2 * 65536 + b3 * 16777216

/-- The 64-bit value obtained by `memcpy` from eight consecutive buffer
bytes on the little-endian Pico. -/
def word64LE (b0 b1 b2 b3 b4 b5 b6 b7 : Nat) : Nat :=
  b0 + b1 * 256 + b2 * 65536 + b3 * 16777216 +
  b4 * 4294967296 + b5 * 1099511627776 +
  b6 * 281474976710656 + b7 * 72057594037927936

/-- Two's-complement bit pattern of an `int32_t`. -/
def u32ofInt (v : Int) : Nat := (v % 4294967296).toNat

/-- Reinterpret a 32-bit pattern as an `int32_t`. -/
def i32ofU32 (u : Nat) : Int :=
  if u < 2147483648 then (u : Int) else (u : Int) - 4294967296

/-- Two's-complement bit pattern of an `int64_t`. -/
def u64ofInt (v : Int) : Nat := (v % 18446744073709551616).toNat

/-- Reinterpret a 64-bit pattern as an `int64_t`. -/
def i64ofU64 (u : Nat) : Int :=
  if u < 9223372036854775808 then (u : Int) else (u : Int) - 18446744073709551616

/-- `static_cast<std::size_t>` of a (possibly negative) `int32_t`:
reduction modulo `2^64`. -/
def sizeTCast (i : Int) : Nat := (i % 18446744073709551616).toNat

/-- The `while (len % 4 != 0) buf[len++] = 0;` padding loops of the
source: append zero bytes until the length is a multiple of 4. -/
def padTo4 (l : List Nat) : List Nat :=
  l ++ List.replicate (align4 l.length - l.length) 0

/-- The bytes of the NUL-terminated C string at offset `ofs` of a
buffer (what a captured `const char*` into the buffer denotes). -/
def readCStr (buf : List Nat) (ofs : Nat) : List Nat :=
  (buf.drop ofs).takeWhile (fun b => b ≠ 0)

/-- The `n` buffer bytes starting at offset `ofs` (what a captured blob
reference denotes). -/
def sliceOf (buf : List Nat) (ofs n : Nat) : List Nat :=
  (buf.drop ofs).take n

/-- The first seven bytes of the bundle magic, `"#bundle"`; this is what
`std::memcmp(elemData, "#bundle", 7)` compares. -/
def magic7 : List Nat := [35, 98, 117, 110, 100, 108, 101]

/-- The full eight-byte bundle magic `"#bundle\0"` written by
`OSCBundle::clear`. -/
def magic8 : List Nat := [35, 98, 117, 110, 100, 108, 101, 0]

/-- Builder state of `OSCMessage` (PicoOSC.hpp L168-L491): the used
prefixes of the three fixed buffers.  `mAddressSize`, `mTypeTagCount`
and `mArgBufferSize` are the lengths of the lists. -/
structure OSCMessage where
  mAddress : List Nat
  mTypeTags : List Nat
  mArgBuffer : List Nat
  deriving DecidableEq, Repr

namespace OSCMessage

/-- `clear()` (and the constructor): all three buffers empty. -/
def cleared : OSCMessage := ⟨[], [], []⟩

/-- `setAddress` (L190-L206).  The input list is the bytes of the C
string (without its terminator); `strlen` is its length. -/
def setAddress (m : OSCMessage) (address : List Nat) : Bool × OSCMessage :=
  let len := address.length
  if 256 ≤ len then (false, m)
  else (true, { m with mAddress := padTo4 (address ++ [0]) })

/-- `canAddArg` (L477-L481). -/
def canAddArg (m : OSCMessage) (bytes : Nat) : Bool :=
  decide (m.mTypeTags.length < 63) && decide (m.mArgBuffer.length + bytes ≤ 768)

/-- `addInt` (L211-L220). -/
def addInt (m : OSCMessage) (value : Int) : Bool × OSCMessage :=
  if m.canAddArg 4 then
    (true, { m with mTypeTags := m.mTypeTags ++ [105],
                    mArgBuffer := m.mArgBuffer ++ storeLE32 (swap_endian32 (u32ofInt value)) })
  else (false, m)

/-- `addFloat` (L225-L234); the argument is the IEEE bit pattern of the
float. -/
def addFloat (m : OSCMessage) (bits : Nat) : Bool × OSCMessage :=
  if m.canAddArg 4 then
    (true, { m with mTypeTags := m.mTypeTags ++ [102],
                    mArgBuffer := m.mArgBuffer ++ storeLE32 (swap_endian32 bits) })
  else (false, m)

/-- `addString` (L239-L258).  The input list is the bytes of the C
string (without its terminator). -/
def addString (m : OSCMessage) (value : List Nat) : Bool × OSCMessage :=
  let len := value.length
  let paddedLen := align4 (len + 1)
  if m.canAddArg paddedLen then
    (true, { m with mTypeTags := m.mTypeTags ++ [115],
                    mArgBuffer := padTo4 (m.mArgBuffer ++ value ++ [0]) })
  else (false, m)

/-- `addBlob` (L263-L286).  `size` is the `int32_t` size parameter; the
`static_cast<std::size_t>(size)` and the following `+ 3` are reduced
modulo `2^64` exactly as 64-bit arithmetic does.  The `memcpy` from
`data` reads `(size_t)size` bytes; `data.take` models that read for the
in-range case (a call with `size` larger than the data is out of the C
abstract machine). -/
def addBlob (m : OSCMessage) (data : List Nat) (size : Int) : Bool × OSCMessage :=
  let paddedDataLen := (sizeTCast size + 3) % 18446744073709551616 / 4 * 4
  if m.canAddArg ((4 + paddedDataLen) % 18446744073709551616) then
    (true, { m with mTypeTags := m.mTypeTags ++ [98],
                    mArgBuffer := padTo4 ((m.mArgBuffer ++ storeLE32 (swap_endian32 (u32ofInt size)))
                                            ++ data.take (sizeTCast size)) })
  else (false, m)

/-- `addInt64` (L291-L300). -/
def addInt64 (m : OSCMessage) (value : Int) : Bool × OSCMessage :=
  if m.canAddArg 8 then
    (true, { m with mTypeTags := m.mTypeTags ++ [104],
                    mArgBuffer := m.mArgBuffer ++ storeLE64 (swap_endian64 (u64ofInt value)) })
  else (false, m)

/-- `addDouble` (L305-L314); the argument is the IEEE bit pattern of the
double. -/
def addDouble (m : OSCMessage) (bits : Nat) : Bool × OSCMessage :=
  if m.canAddArg 8 then
    (true, { m with mTypeTags := m.mTypeTags ++ [100],
                    mArgBuffer := m.mArgBuffer ++ storeLE64 (swap_endian64 bits) })
  else (false, m)

/-- `addTimetag` (L319-L330): the two 32-bit fields are swapped and
stored separately. -/
def addTimetag (m : OSCMessage) (seconds fractions : Nat) : Bool × OSCMessage :=
  if m.canAddArg 8 then
    (true, { m with mTypeTags := m.mTypeTags ++ [116],
                    mArgBuffer := m.mArgBuffer ++ storeLE32 (swap_endian32 seconds)
                                    ++ storeLE32 (swap_endian32 fractions) })
  else (false, m)

/-- `addTrue` (L335-L340): tag only, no payload. -/
def addTrue (m : OSCMessage) : Bool × OSCMessage :=
  if 63 ≤ m.mTypeTags.length then (false, m)
  else (true, { m with mTypeTags := m.mTypeTags ++ [84] })

/-- `addFalse` (L345-L350). -/
def addFalse (m : OSCMessage) : Bool × OSCMessage :=
  if 63 ≤ m.mTypeTags.length then (false, m)
  else (true, { m with mTypeTags := m.mTypeTags ++ [70] })

/-- `addNil` (L355-L360). -/
def addNil (m : OSCMessage) : Bool × OSCMessage :=
  if 63 ≤ m.mTypeTags.length then (false, m)
  else (true, { m with mTypeTags := m.mTypeTags ++ [78] })

/-- `addInfinitum` (L365-L370). -/
def addInfinitum (m : OSCMessage) : Bool × OSCMessage :=
  if 63 ≤ m.mTypeTags.length then (false, m)
  else (true, { m with mTypeTags := m.mTypeTags ++ [73] })

/-- `addMidi` (L375-L385): four raw bytes. -/
def addMidi (m : OSCMessage) (port status data1 data2 : Nat) : Bool × OSCMessage :=
  if m.canAddArg 4 then
    (true, { m with mTypeTags := m.mTypeTags ++ [109],
                    mArgBuffer := m.mArgBuffer ++ [port, status, data1, data2] })
  else (false, m)

/-- `addChar` (L390-L401): three zero bytes then the character. -/
def addChar (m : OSCMessage) (c : Nat) : Bool × OSCMessage :=
  if m.canAddArg 4 then
    (true, { m with mTypeTags := m.mTypeTags ++ [99],
                    mArgBuffer := m.mArgBuffer ++ [0, 0, 0, c] })
  else (false, m)

/-- `addColor` (L406-L416): four raw bytes. -/
def addColor (m : OSCMessage) (r g b a : Nat) : Bool × OSCMessage :=
  if m.canAddArg 4 then
    (true, { m with mTypeTags := m.mTypeTags ++ [114],
                    mArgBuffer := m.mArgBuffer ++ [r, g, b, a] })
  else (false, m)

/-- `build` (L424-L455): returns the written bytes, or `[]` where the
source returns 0.  The padding after the type-tag NUL runs until the
write position `mAddressSize + typeTagSize` is a multiple of 4. -/
def build (m : OSCMessage) (maxSize : Nat) : List Nat :=
  let typeTagSize := 1 + m.mTypeTags.length + 1
  let typeTagPadded := align4 typeTagSize
  let totalSize := m.mAddress.length + typeTagPadded + m.mArgBuffer.length
  if totalSize > maxSize ∨ m.mAddress.length = 0 then []
  else
    m.mAddress ++ [44] ++ m.mTypeTags ++ [0]
      ++ List.replicate (align4 (m.mAddress.length + typeTagSize)
                          - (m.mAddress.length + typeTagSize)) 0
      ++ m.mArgBuffer

end OSCMessage

/-- Builder state of `OSCBundle` (L499-L583): the used prefix of the
fixed buffer; `mBufferSize` is the length. -/
structure OSCBundle where
  mBuffer : List Nat
  deriving DecidableEq, Repr

namespace OSCBundle

/-- `clear()` (L506-L518): the 8-byte magic plus 8 reserved (zeroed)
timetag bytes. -/
def cleared : OSCBundle := ⟨magic8 ++ List.replicate 8 0⟩

/-- `setTimetag` (L523-L529): overwrite bytes 8..15 with the two
byte-swapped 32-bit fields. -/
def setTimetag (b : OSCBundle) (seconds fractions : Nat) : OSCBundle :=
  ⟨b.mBuffer.take 8 ++ storeLE32 (swap_endian32 seconds)
     ++ storeLE32 (swap_endian32 fractions) ++ b.mBuffer.drop 16⟩

/-- `addMessage` (L535-L558). -/
def addMessage (b : OSCBundle) (msg : OSCMessage) : Bool × OSCBundle :=
  let msgBytes := msg.build 1024
  if msgBytes.length = 0 then (false, b)
  else if b.mBuffer.length + 4 + msgBytes.length > 4096 then (false, b)
  else (true, ⟨b.mBuffer ++ storeLE32 (swap_endian32 (u32ofInt msgBytes.length)) ++ msgBytes⟩)

end OSCBundle

/-- Payload of a parsed argument.  The source stores it in a union plus
the out-of-union `s`/`blobData`/`blobSize` fields of `OSCArg`
(L588-L604); each `case` of the parse loop writes exactly one variant,
so the written content is a tagged sum (`noPayload` for the tag-only
kinds `T F N I` and for unknown tags, which write nothing). -/
inductive OSCVal where
  | noPayload
  | vi (v : Int)
  | vf (bits : Nat)
  | vs (ofs : Nat)
  | vblob (ofs : Nat) (bsize : Int)
  | vh (v : Int)
  | vd (bits : Nat)
  | vt (seconds fractions : Nat)
  | vmidi (port status data1 data2 : Nat)
  | vc (c : Nat)
  | vcolor (r g b a : Nat)
  deriving DecidableEq, Repr

/-- A parsed argument slot: the tag byte and the payload written by its
branch.  Captured pointers (`s`, `blobData`) are buffer offsets. -/
structure OSCArg where
  type : Nat
  val : OSCVal
  deriving DecidableEq, Repr

/-- The `const char*` fields of a view: null, the static `""` literal,
or a pointer into the parsed buffer at an offset. -/
inductive CStrPtr where
  | null
  | emptyLit
  | ofs (n : Nat)
  deriving DecidableEq, Repr

/-- State of `OSCMessageView` (L609-L839): `mArgCount` is the length of
`mArgs`. -/
structure OSCMessageView where
  mAddress : Option Nat
  mTypeTags : CStrPtr
  mArgs : List OSCArg
  deriving DecidableEq, Repr

/-- `clear()` (L614-L619). -/
def OSCMessageView.clearedView : OSCMessageView := ⟨none, .null, []⟩

/-- Result of `parse`: `ok`/`fail` are the boolean returns of the
source; `oob` marks a buffer read outside `[0, size)` and is proven
unreachable. -/
inductive PStatus where
  | ok
  | fail
  | oob
  deriving DecidableEq, Repr

/-- Result of the argument-decoding loop; `failp`/`oobp` carry the
argument slots completed before the failing branch (the contents of
`mArgs[0..mArgCount)` at the early return). -/
inductive ArgsRes where
  | done (args : List OSCArg)
  | failp (args : List OSCArg)
  | oobp (args : List OSCArg)
  deriving DecidableEq, Repr

/-- The scanning loops `while (pos < size && buffer[pos] != '\0') pos++;`
of the source: the final value of `pos` (first NUL at or after `pos`, or
`size`).  Every byte this loop reads is at an index `< size` by its own
guard. -/
def scanNul (buf : List Nat) (pos : Nat) : Nat :=
  pos + ((buf.drop pos).takeWhile (fun b => b ≠ 0)).length

/-- A 4-byte read at `pos`, as an explicit in-bounds access. -/
def bytes4 (buf : List Nat) (pos : Nat) : Option (Nat × Nat × Nat × Nat) :=
  match buf.get? pos, buf.get? (pos + 1), buf.get? (pos + 2), buf.get? (pos + 3) with
  | some b0, some b1, some b2, some b3 => some (b0, b1, b2, b3)
  | _, _, _, _ => none

/-- An 8-byte read at `pos`, as an explicit in-bounds access. -/
def bytes8 (buf : List Nat) (pos : Nat) :
    Option (Nat × Nat × Nat × Nat × Nat × Nat × Nat × Nat) :=
  match bytes4 buf pos, bytes4 buf (pos + 4) with
  | some (b0, b1, b2, b3), some (b4, b5, b6, b7) => some (b0, b1, b2, b3, b4, b5, b6, b7)
  | _, _ => none

/-- Result of one iteration of the argument-decoding switch:
`next arg pos'` appends a slot and continues at `pos'`, `fails` is the
early `return false` of a violated bounds check, `oob` marks a read
outside `[0, size)` and is proven unreachable. -/
inductive StepRes where
  | next (arg : OSCArg) (pos' : Nat)
  | fails
  | oob
  deriving DecidableEq, Repr

/-- The body of the argument-decoding loop of `parse` (L662-L754): the
`switch (*types)` over one tag character `c` at payload position `pos`.
Each fixed-width branch checks `pos + width <= size` before reading;
string branches scan to a NUL; the blob branch reads a big-endian
`int32_t` length and re-checks `pos + (size_t)blobSize <= size` with
exact 64-bit cast semantics; `T F N I` and unknown tags consume
nothing. -/
def parseArgsStep (buf : List Nat) (pos : Nat) (c : Nat) : StepRes :=
  if c = 105 then  -- case 'i': int32
    if pos + 4 > buf.length then .fails else
    match bytes4 buf pos with
    | none => .oob
    | some (b0, b1, b2, b3) =>
      .next ⟨c, .vi (i32ofU32 (swap_endian32 (word32LE b0 b1 b2 b3)))⟩ (pos + 4)
  else if c = 102 then  -- case 'f': float32
    if pos + 4 > buf.length then .fails else
    match bytes4 buf pos with
    | none => .oob
    | some (b0, b1, b2, b3) =>
      .next ⟨c, .vf (swap_endian32 (word32LE b0 b1 b2 b3))⟩ (pos + 4)
  else if c = 115 ∨ c = 83 then  -- case 's', case 'S': string
    let sOfs := pos
    let sEnd := scanNul buf pos
    if sEnd ≥ buf.length then .fails else
    .next ⟨c, .vs sOfs⟩ (align4 (sEnd + 1))
  else if c = 98 then  -- case 'b': blob
    if pos + 4 > buf.length then .fails else
    match bytes4 buf pos with
    | none => .oob
    | some (b0, b1, b2, b3) =>
      let bsize := i32ofU32 (swap_endian32 (word32LE b0 b1 b2 b3))
      let dOfs := pos + 4
      let adv := (dOfs + sizeTCast bsize) % 18446744073709551616
      if adv > buf.length then .fails else
      .next ⟨c, .vblob dOfs bsize⟩ (align4 adv)
  else if c = 104 then  -- case 'h': int64
    if pos + 8 > buf.length then .fails else
    match bytes8 buf pos with
    | none => .oob
    | some (b0, b1, b2, b3, b4, b5, b6, b7) =>
      .next ⟨c, .vh (i64ofU64 (swap_endian64 (word64LE b0 b1 b2 b3 b4 b5 b6 b7)))⟩ (pos + 8)
  else if c = 100 then  -- case 'd': double
    if pos + 8 > buf.length then .fails else
    match bytes8 buf pos with
    | none => .oob
    | some (b0, b1, b2, b3, b4, b5, b6, b7) =>
      .next ⟨c, .vd (swap_endian64 (word64LE b0 b1 b2 b3 b4 b5 b6 b7))⟩ (pos + 8)
  else if c = 116 then  -- case 't': timetag, two swapped 32-bit fields
    if pos + 8 > buf.length then .fails else
    match bytes4 buf pos, bytes4 buf (pos + 4) with
    | some (b0, b1, b2, b3), some (b4, b5, b6, b7) =>
      .next ⟨c, .vt (swap_endian32 (word32LE b0 b1 b2 b3))
                    (swap_endian32 (word32LE b4 b5 b6 b7))⟩ (pos + 8)
    | _, _ => .oob
  else if c = 109 then  -- case 'm': MIDI, four raw bytes
    if pos + 4 > buf.length then .fails else
    match bytes4 buf pos with
    | none => .oob
    | some (b0, b1, b2, b3) => .next ⟨c, .vmidi b0 b1 b2 b3⟩ (pos + 4)
  else if c = 99 then  -- case 'c': char in the last byte
    if pos + 4 > buf.length then .fails else
    match buf.get? (pos + 3) with
    | none => .oob
    | some b => .next ⟨c, .vc b⟩ (pos + 4)
  else if c = 114 then  -- case 'r': RGBA, four raw bytes
    if pos + 4 > buf.length then .fails else
    match bytes4 buf pos with
    | none => .oob
    | some (b0, b1, b2, b3) => .next ⟨c, .vcolor b0 b1 b2 b3⟩ (pos + 4)
  else if c = 84 ∨ c = 70 ∨ c = 78 ∨ c = 73 then  -- 'T' 'F' 'N' 'I': no data
    .next ⟨c, .noPayload⟩ pos
  else  -- default: unknown type, skip (no bytes consumed)
    .next ⟨c, .noPayload⟩ pos

/-- The argument-decoding loop of `parse` (L655-L758):
`while (*types && mArgCount < MAX_ARGS) { switch (*types) ... }`.
`types` is the tag list (the NUL-terminated run after the comma, which
the address/type-tag phases established to lie inside the buffer), `pos`
the current payload position, `args` the accumulated `mArgs` prefix;
each iteration is `parseArgsStep`. -/
def parseArgs (buf : List Nat) (pos : Nat) (types : List Nat) (args : List OSCArg) : ArgsRes :=
  match types with
  | [] => .done args
  | c :: rest =>
    if 64 ≤ args.length then .done args
    else
      match parseArgsStep buf pos c with
      | .next arg pos' => parseArgs buf pos' rest (args ++ [arg])
      | .fails => .failp args
      | .oob => .oobp args

/-- `OSCMessageView::parse` (L625-L761), returning the final view state
together with the status.  The size parameter is `buf.length`. -/
def OSCMessageView.parse (buf : List Nat) : OSCMessageView × PStatus :=
  if buf.length < 4 then (.clearedView, .fail)
  else if buf.getD 0 0 ≠ 47 then (.clearedView, .fail)
  else
    -- mAddress = buffer; scan for the terminator
    let aEnd := scanNul buf 0
    if aEnd ≥ buf.length then ({ mAddress := some 0, mTypeTags := .null, mArgs := [] }, .fail)
    else
      let pos := align4 (aEnd + 1)
      if pos ≥ buf.length ∨ buf.getD pos 0 ≠ 44 then
        -- no type tags = no arguments (valid); mTypeTags = ""
        ({ mAddress := some 0, mTypeTags := .emptyLit, mArgs := [] }, .ok)
      else
        let tEnd := scanNul buf pos
        if tEnd ≥ buf.length then
          ({ mAddress := some 0, mTypeTags := .ofs (pos + 1), mArgs := [] }, .fail)
        else
          let types := (buf.drop (pos + 1)).takeWhile (fun b => b ≠ 0)
          match parseArgs buf (align4 (tEnd + 1)) types [] with
          | .done args =>
            ({ mAddress := some 0, mTypeTags := .ofs (pos + 1), mArgs := args }, .ok)
          | .failp args =>
            ({ mAddress := some 0, mTypeTags := .ofs (pos + 1), mArgs := args }, .fail)
          | .oobp args =>
            ({ mAddress := some 0, mTypeTags := .ofs (pos + 1), mArgs := args }, .oob)

mutual

/-- `matchPattern` (L813-L833) on byte lists.  The main loop runs while
both strings are nonempty; when either is exhausted, trailing `*` in the
pattern are skipped and both must be exhausted. -/
def matchPattern (pattern str : List Nat) : Bool :=
  match pattern, str with
  | pc :: pr, sc :: sr =>
    if pc = 42 then
      if pr = [] then true
      else starLoop pr (sc :: sr)
    else if pc = 63 ∨ pc = sc then matchPattern pr sr
    else false
  | p, s => decide (p.dropWhile (fun c => c = 42) = []) && decide (s = [])
termination_by (pattern.length, str.length, 0)

/-- The backtracking loop of the `*` case:
`while (*str) { if (matchPattern(pattern, str)) return true; str++; }`. -/
def starLoop (pattern : List Nat) (str : List Nat) : Bool :=
  match str with
  | [] => false
  | c :: r => matchPattern pattern (c :: r) || starLoop pattern r
termination_by (pattern.length, str.length, 1)

end


theorem swap_endian32_lt (v : Nat) : swap_endian32 v < 4294967296 := by
  simp only [swap_endian32]
  omega

theorem swap_endian64_lt (v : Nat) : swap_endian64 v < 18446744073709551616 := by
  simp only [swap_endian64]
  omega

theorem i32ofU32_range (u : Nat) (h : u < 4294967296) :
    -2147483648 ≤ i32ofU32 u ∧ i32ofU32 u < 2147483648 := by
  simp only [i32ofU32]
  split <;> omega

theorem sizeTCast_of_nonneg (e : Int) (h0 : 0 ≤ e) (h1 : e < 2147483648) :
    (sizeTCast e : Int) = e := by
  simp only [sizeTCast]
  omega

theorem sliceOf_length_le (buf : List Nat) (ofs n : Nat) :
    (sliceOf buf ofs n).length ≤ buf.length - ofs := by
  simp [sliceOf]

/-- The element loop of `OSCServer::parseBundle` (L953-L985), returning
the list of views passed to the registered callback, in invocation
order.  `pos` starts at 16 (past `"#bundle\0"` and the timetag).  Each
iteration reads a big-endian `int32_t` element size, stops on a
non-positive or oversized element, recurses when the element is at least
8 bytes long and its first seven bytes are `"#bundle"` (the
`memcmp(elemData, "#bundle", 7)` of L973), and otherwise parses the
element as a message, recording the view when `parse` returns true. -/
def parseBundleAux (buf : List Nat) (pos : Nat) : List OSCMessageView :=
  if h4 : pos + 4 ≤ buf.length then
    match bytes4 buf pos with
    | none => []
    | some (b0, b1, b2, b3) =>
      let elemSize := i32ofU32 (swap_endian32 (word32LE b0 b1 b2 b3))
      let pos' := pos + 4
      if hsz : elemSize ≤ 0 ∨ pos' + (sizeTCast elemSize) > buf.length then []
      else
        let elemData := sliceOf buf pos' (sizeTCast elemSize)
        let this :=
          if 8 ≤ sizeTCast elemSize ∧ elemData.take 7 = magic7 then
            parseBundleAux elemData 16
          else
            match OSCMessageView.parse elemData with
            | (v, .ok) => [v]
            | _ => []
        this ++ parseBundleAux buf (pos' + sizeTCast elemSize)
  else []
termination_by (buf.length, buf.length + 4 - pos)
decreasing_by
  all_goals simp_wf
  · apply Prod.Lex.left
    have h := sliceOf_length_le buf (pos + 4)
      (sizeTCast (i32ofU32 (swap_endian32 (word32LE b0 b1 b2 b3))))
    omega
  · apply Prod.Lex.right
    omega

/-- `OSCServer::parseBundle(buffer, size)`: skip the 16-byte header and
run the element loop. -/
def parseBundle (buf : List Nat) : List OSCMessageView :=
  parseBundleAux buf 16

/-- One builder call adding an argument: the fourteen `add*` operations
of `OSCMessage` with their inputs.  Strings carry their bytes without
the terminator; blobs carry their data bytes (the `int32_t` size
passed to `addBlob` is the data length); floats and doubles carry bit
patterns. -/
inductive BArg where
  | int (v : Int)
  | float (bits : Nat)
  | str (s : List Nat)
  | blob (data : List Nat)
  | int64 (v : Int)
  | double (bits : Nat)
  | timetag (seconds fractions : Nat)
  | bTrue
  | bFalse
  | bNil
  | bInf
  | midi (port status data1 data2 : Nat)
  | char (c : Nat)
  | color (r g b a : Nat)
  deriving DecidableEq, Repr

/-- Dispatch a `BArg` to the corresponding builder operation. -/
def addArg (m : OSCMessage) : BArg → Bool × OSCMessage
  | .int v => m.addInt v
  | .float bits => m.addFloat bits
  | .str s => m.addString s
  | .blob data => m.addBlob data (data.length : Int)
  | .int64 v => m.addInt64 v
  | .double bits => m.addDouble bits
  | .timetag s f => m.addTimetag s f
  | .bTrue => m.addTrue
  | .bFalse => m.addFalse
  | .bNil => m.addNil
  | .bInf => m.addInfinitum
  | .midi p s d1 d2 => m.addMidi p s d1 d2
  | .char c => m.addChar c
  | .color r g b a => m.addColor r g b a

/-- The type-tag byte the builder records for a `BArg`. -/
def tagOf : BArg → Nat
  | .int _ => 105
  | .float _ => 102
  | .str _ => 115
  | .blob _ => 98
  | .int64 _ => 104
  | .double _ => 100
  | .timetag _ _ => 116
  | .bTrue => 84
  | .bFalse => 70
  | .bNil => 78
  | .bInf => 73
  | .midi _ _ _ _ => 109
  | .char _ => 99
  | .color _ _ _ _ => 114

/-- The type-tag bytes of a list of builder arguments. -/
def tagsOf (args : List BArg) : List Nat := args.map tagOf

/-- Well-formed builder input: machine values in range, string bytes
NUL-free, byte-sized components. -/
def ArgWF : BArg → Prop
  | .int v => -2147483648 ≤ v ∧ v < 2147483648
  | .float bits => bits < 4294967296
  | .str s => ∀ b ∈ s, b ≠ 0 ∧ b < 256
  | .blob data => data.length < 2147483648 ∧ ∀ b ∈ data, b < 256
  | .int64 v => -9223372036854775808 ≤ v ∧ v < 9223372036854775808
  | .double bits => bits < 18446744073709551616
  | .timetag s f => s < 4294967296 ∧ f < 4294967296
  | .bTrue => True
  | .bFalse => True
  | .bNil => True
  | .bInf => True
  | .midi p s d1 d2 => p < 256 ∧ s < 256 ∧ d1 < 256 ∧ d2 < 256
  | .char c => c < 256
  | .color r g b a => r < 256 ∧ g < 256 ∧ b < 256 ∧ a < 256

instance : DecidablePred ArgWF := by
  intro a
  cases a <;> simp only [ArgWF] <;> infer_instance

/-- Well-formed address input: a byte string that begins with `/` and
contains no NUL. -/
def AddrWF (addr : List Nat) : Prop :=
  addr.head? = some 47 ∧ ∀ b ∈ addr, b ≠ 0 ∧ b < 256

instance : DecidablePred AddrWF := by
  intro a
  simp only [AddrWF]
  infer_instance

/-- Run a sequence of `add*` calls, requiring every call to report
success. -/
def addArgs (m : OSCMessage) : List BArg → Option OSCMessage
  | [] => some m
  | a :: rest =>
    let r := addArg m a
    if r.1 then addArgs r.2 rest else none

/-- Assemble a message with the builder: `clear`, `setAddress`, then the
`add*` calls, requiring every call to report success. -/
def buildMsg (addr : List Nat) (args : List BArg) : Option OSCMessage :=
  let r := OSCMessage.cleared.setAddress addr
  if r.1 then addArgs r.2 args else none

/-- Run a sequence of `addMessage` calls on a bundle, requiring every
call to report success. -/
def addMessages (b : OSCBundle) : List OSCMessage → Option OSCBundle
  | [] => some b
  | m :: rest =>
    let r := b.addMessage m
    if r.1 then addMessages r.2 rest else none

/-- The bytes an `add*` call appends to `mArgBuffer`. -/
def encodeArg : BArg → List Nat
  | .int v => storeLE32 (swap_endian32 (u32ofInt v))
  | .float bits => storeLE32 (swap_endian32 bits)
  | .str s => s ++ [0] ++ List.replicate (align4 (s.length + 1) - (s.length + 1)) 0
  | .blob data => storeLE32 (swap_endian32 (u32ofInt (data.length : Int))) ++ data
      ++ List.replicate (align4 data.length - data.length) 0
  | .int64 v => storeLE64 (swap_endian64 (u64ofInt v))
  | .double bits => storeLE64 (swap_endian64 bits)
  | .timetag s f => storeLE32 (swap_endian32 s) ++ storeLE32 (swap_endian32 f)
  | .bTrue => []
  | .bFalse => []
  | .bNil => []
  | .bInf => []
  | .midi p s d1 d2 => [p, s, d1, d2]
  | .char c => [0, 0, 0, c]
  | .color r g b a => [r, g, b, a]

/-- Concatenated payload encodings of a list of builder arguments. -/
def encodeArgs (args : List BArg) : List Nat := args.flatMap encodeArg

/-- A parsed argument slot reproduces a builder argument exactly:
numeric values bit-exact, strings and blobs byte-exact through their
captured references into `buf`, tag-only kinds by their tag. -/
def Reproduces (buf : List Nat) : BArg → OSCArg → Prop
  | .int v, p => p = ⟨105, .vi v⟩
  | .float bits, p => p = ⟨102, .vf bits⟩
  | .str s, p => ∃ ofs, p = ⟨115, .vs ofs⟩ ∧ readCStr buf ofs = s
  | .blob data, p => ∃ ofs, p = ⟨98, .vblob ofs (data.length : Int)⟩
      ∧ sliceOf buf ofs data.length = data
  | .int64 v, p => p = ⟨104, .vh v⟩
  | .double bits, p => p = ⟨100, .vd bits⟩
  | .timetag s f, p => p = ⟨116, .vt s f⟩
  | .bTrue, p => p = ⟨84, .noPayload⟩
  | .bFalse, p => p = ⟨70, .noPayload⟩
  | .bNil, p => p = ⟨78, .noPayload⟩
  | .bInf, p => p = ⟨73, .noPayload⟩
  | .midi a b c d, p => p = ⟨109, .vmidi a b c d⟩
  | .char c, p => p = ⟨99, .vc c⟩
  | .color r g b a, p => p = ⟨114, .vcolor r g b a⟩

/-- Size-prefix-encode a list of bundle elements, as `addMessage` does:
each element is preceded by its big-endian `int32_t` length. -/
def encElems (es : List (List Nat)) : List Nat :=
  es.flatMap (fun e => storeLE32 (swap_endian32 (u32ofInt (e.length : Int))) ++ e)

/-! ### Arithmetic facts about the wire primitives -/

theorem align4_ge (x : Nat) : x ≤ align4 x := by
  simp only [align4]
  omega

theorem align4_mod (x : Nat) : align4 x % 4 = 0 := by
  simp only [align4]
  omega

theorem align4_of_mod (x : Nat) (h : x % 4 = 0) : align4 x = x := by
  simp only [align4]
  omega

theorem align4_lt (x : Nat) : align4 x < x + 4 := by
  simp only [align4]
  omega

theorem align4_add_of_mod (a b : Nat) (h : a % 4 = 0) : align4 (a + b) = a + align4 b := by
  simp only [align4]
  omega

theorem swap_endian32_bytes (a b c d : Nat) (ha : a < 256) (hb : b < 256) (hc : c < 256)
    (hd : d < 256) :
    swap_endian32 (a + b * 256 + c * 65536 + d * 16777216)
      = d + c * 256 + b * 65536 + a * 16777216 := by
  simp only [swap_endian32]
  omega

theorem word32LE_store (x : Nat) :
    word32LE (x % 256) (x / 256 % 256) (x / 65536 % 256) (x / 16777216 % 256)
      = x % 4294967296 := by
  simp only [word32LE]
  omega

theorem swap_endian32_invol (u : Nat) (h : u < 4294967296) :
    swap_endian32 (swap_endian32 u) = u := by
  obtain ⟨a, b, c, d, ha, hb, hc, hd, rfl⟩ :
      ∃ a b c d, a < 256 ∧ b < 256 ∧ c < 256 ∧ d < 256
        ∧ u = a + b * 256 + c * 65536 + d * 16777216 := by
    exact ⟨u % 256, u / 256 % 256, u / 65536 % 256, u / 16777216 % 256,
      by omega, by omega, by omega, by omega, by omega⟩
  rw [swap_endian32_bytes a b c d ha hb hc hd,
      swap_endian32_bytes d c b a hd hc hb ha]

theorem swap_endian64_bytes (a b c d e f g h : Nat) (ha : a < 256) (hb : b < 256)
    (hc : c < 256) (hd : d < 256) (he : e < 256) (hf : f < 256) (hg : g < 256)
    (hh : h < 256) :
    swap_endian64 (a + b * 256 + c * 65536 + d * 16777216 + e * 4294967296
        + f * 1099511627776 + g * 281474976710656 + h * 72057594037927936)
      = h + g * 256 + f * 65536 + e * 16777216 + d * 4294967296
        + c * 1099511627776 + b * 281474976710656 + a * 72057594037927936 := by
  simp only [swap_endian64]
  omega

theorem word64LE_store (x : Nat) :
    word64LE (x % 256) (x / 256 % 256) (x / 65536 % 256) (x / 16777216 % 256)
      (x / 4294967296 % 256) (x / 1099511627776 % 256) (x / 281474976710656 % 256)
      (x / 72057594037927936 % 256) = x % 18446744073709551616 := by
  simp only [word64LE]
  omega

theorem swap_endian64_invol (u : Nat) (h : u < 18446744073709551616) :
    swap_endian64 (swap_endian64 u) = u := by
  obtain ⟨a, b, c, d, e, f, g, h8, ha, hb, hc, hd, he, hf, hg, hh, rfl⟩ :
      ∃ a b c d e f g h8, a < 256 ∧ b < 256 ∧ c < 256 ∧ d < 256 ∧ e < 256 ∧ f < 256
        ∧ g < 256 ∧ h8 < 256
        ∧ u = a + b * 256 + c * 65536 + d * 16777216 + e * 4294967296
            + f * 1099511627776 + g * 281474976710656 + h8 * 72057594037927936 := by
    exact ⟨u % 256, u / 256 % 256, u / 65536 % 256, u / 16777216 % 256,
      u / 4294967296 % 256, u / 1099511627776 % 256, u / 281474976710656 % 256,
      u / 72057594037927936 % 256,
      by omega, by omega, by omega, by omega, by omega, by omega, by omega, by omega, by omega⟩
  rw [swap_endian64_bytes a b c d e f g h8 ha hb hc hd he hf hg hh,
      swap_endian64_bytes h8 g f e d c b a hh hg hf he hd hc hb ha]

/-- Parsing the four bytes `storeLE32 (swap_endian32 u)` back with a
little-endian `memcpy` and `swap_endian` recovers `u`. -/
theorem decode32_store (u : Nat) (h : u < 4294967296) :
    swap_endian32 (word32LE (swap_endian32 u % 256) (swap_endian32 u / 256 % 256)
      (swap_endian32 u / 65536 % 256) (swap_endian32 u / 16777216 % 256)) = u := by
  rw [word32LE_store, Nat.mod_eq_of_lt (swap_endian32_lt u), swap_endian32_invol u h]

/-- Parsing the eight bytes `storeLE64 (swap_endian64 u)` back with a
little-endian `memcpy` and `swap_endian` recovers `u`. -/
theorem decode64_store (u : Nat) (h : u < 18446744073709551616) :
    swap_endian64 (word64LE (swap_endian64 u % 256) (swap_endian64 u / 256 % 256)
      (swap_endian64 u / 65536 % 256) (swap_endian64 u / 16777216 % 256)
      (swap_endian64 u / 4294967296 % 256) (swap_endian64 u / 1099511627776 % 256)
      (swap_endian64 u / 281474976710656 % 256)
      (swap_endian64 u / 72057594037927936 % 256)) = u := by
  rw [word64LE_store, Nat.mod_eq_of_lt (swap_endian64_lt u), swap_endian64_invol u h]

theorem i32_roundtrip (v : Int) (h1 : -2147483648 ≤ v) (h2 : v < 2147483648) :
    i32ofU32 (u32ofInt v) = v := by
  simp only [i32ofU32, u32ofInt]
  split <;> omega

theorem i64_roundtrip (v : Int) (h1 : -9223372036854775808 ≤ v) (h2 : v < 9223372036854775808) :
    i64ofU64 (u64ofInt v) = v := by
  simp only [i64ofU64, u64ofInt]
  split <;> omega

theorem u32ofInt_lt (v : Int) : u32ofInt v < 4294967296 := by
  simp only [u32ofInt]
  omega

theorem u64ofInt_lt (v : Int) : u64ofInt v < 18446744073709551616 := by
  simp only [u64ofInt]
  omega

theorem sizeTCast_ofNat (n : Nat) (h : n < 18446744073709551616) : sizeTCast (n : Int) = n := by
  simp only [sizeTCast]
  omega

/-! ### Buffer access facts -/

theorem takeWhile_nulFree_append (l r : List Nat) (h : ∀ b ∈ l, b ≠ 0) :
    (l ++ 0 :: r).takeWhile (fun b => b ≠ 0) = l := by
  induction l with
  | nil => simp
  | cons x xs ih =>
    simp only [List.cons_append, List.takeWhile_cons]
    rw [if_pos]
    · rw [ih (fun b hb => h b (List.mem_cons_of_mem x hb))]
    · simp [h x (List.mem_cons_self x xs)]

theorem readCStr_at (pre l r : List Nat) (h : ∀ b ∈ l, b ≠ 0) :
    readCStr (pre ++ (l ++ 0 :: r)) pre.length = l := by
  simp only [readCStr, List.drop_left]
  exact takeWhile_nulFree_append l r h

theorem scanNul_at (pre l r : List Nat) (h : ∀ b ∈ l, b ≠ 0) :
    scanNul (pre ++ (l ++ 0 :: r)) pre.length = pre.length + l.length := by
  simp only [scanNul, List.drop_left]
  rw [takeWhile_nulFree_append l r h]

theorem sliceOf_at (pre l r : List Nat) :
    sliceOf (pre ++ (l ++ r)) pre.length l.length = l := by
  simp only [sliceOf, List.drop_left]
  simp

theorem get?_at (pre : List Nat) (b : Nat) (r : List Nat) :
    (pre ++ b :: r).get? pre.length = some b := by
  rw [List.get?_append_right (Nat.le_refl _)]
  simp

theorem getD_at (pre : List Nat) (b : Nat) (r : List Nat) :
    (pre ++ b :: r).getD pre.length 0 = b := by
  simp only [List.getD, get?_at]
  rfl

theorem bytes4_at (pre : List Nat) (b0 b1 b2 b3 : Nat) (r : List Nat) :
    bytes4 (pre ++ b0 :: b1 :: b2 :: b3 :: r) pre.length = some (b0, b1, b2, b3) := by
  simp only [bytes4]
  have h0 := get?_at pre b0 (b1 :: b2 :: b3 :: r)
  have h1 := get?_at (pre ++ [b0]) b1 (b2 :: b3 :: r)
  have h2 := get?_at (pre ++ [b0, b1]) b2 (b3 :: r)
  have h3 := get?_at (pre ++ [b0, b1, b2]) b3 r
  simp only [List.append_assoc, List.cons_append, List.nil_append, List.length_append,
    List.length_cons, List.length_nil] at h0 h1 h2 h3
  rw [show pre.length + 1 = pre.length + (0 + 1) by omega] at h1
  rw [show pre.length + 2 = pre.length + (0 + 1 + 1) by omega] at h2
  rw [show pre.length + 3 = pre.length + (0 + 1 + 1 + 1) by omega] at h3
  rw [h0, h1, h2, h3]

theorem bytes8_at (pre : List Nat) (b0 b1 b2 b3 b4 b5 b6 b7 : Nat) (r : List Nat) :
    bytes8 (pre ++ b0 :: b1 :: b2 :: b3 :: b4 :: b5 :: b6 :: b7 :: r) pre.length
      = some (b0, b1, b2, b3, b4, b5, b6, b7) := by
  simp only [bytes8]
  have h0 := bytes4_at pre b0 b1 b2 b3 (b4 :: b5 :: b6 :: b7 :: r)
  have h1 := bytes4_at (pre ++ [b0, b1, b2, b3]) b4 b5 b6 b7 r
  simp only [List.append_assoc, List.cons_append, List.nil_append, List.length_append,
    List.length_cons, List.length_nil] at h0 h1
  rw [show pre.length + 4 = pre.length + (0 + 1 + 1 + 1 + 1) by omega]
  rw [h0, h1]

/-! ### Builder characterization -/

theorem padTo4_append (buf l : List Nat) (h : buf.length % 4 = 0) :
    padTo4 (buf ++ l) = buf ++ (l ++ List.replicate (align4 l.length - l.length) 0) := by
  simp only [padTo4, List.length_append, List.append_assoc]
  congr 3
  have h1 := align4_ge l.length
  rw [align4_add_of_mod _ _ h]
  omega

theorem encodeArg_length_mod (a : BArg) : (encodeArg a).length % 4 = 0 := by
  have h4 := align4_mod
  have hge := align4_ge
  cases a <;>
    simp [encodeArg, storeLE32, storeLE64, List.length_append] <;>
    [skip; skip] <;> try omega
  all_goals
    first
    | (rename_i s
       have := h4 (s.length + 1)
       have := hge (s.length + 1)
       omega)
    | (rename_i d
       have := h4 d.length
       have := hge d.length
       omega)

/-- A successful `add*` call appends its tag byte and its payload
encoding, leaves the address unchanged, and was accepted under the
capacity checks. -/
theorem addArg_true (m : OSCMessage) (a : BArg) (m' : OSCMessage) (ha : ArgWF a)
    (hmod : m.mArgBuffer.length % 4 = 0) (h : addArg m a = (true, m')) :
    m' = ⟨m.mAddress, m.mTypeTags ++ [tagOf a], m.mArgBuffer ++ encodeArg a⟩
      ∧ m.mTypeTags.length < 63
      ∧ (m.mArgBuffer.length + (encodeArg a).length ≤ 768 ∨ (encodeArg a).length = 0) := by
  cases a with
  | str s =>
    simp only [addArg, OSCMessage.addString] at h
    split at h
    case isFalse => simp at h
    case isTrue hcan =>
      simp only [OSCMessage.canAddArg, Bool.and_eq_true, decide_eq_true_eq] at hcan
      simp only [Prod.mk.injEq, true_and] at h
      rw [show m.mArgBuffer ++ s ++ [0] = m.mArgBuffer ++ (s ++ [0]) by simp] at h
      rw [padTo4_append _ _ hmod] at h
      refine ⟨?_, hcan.1, Or.inl ?_⟩
      · rw [← h]
        simp [encodeArg, tagOf, List.append_assoc]
      · simp only [encodeArg, List.length_append, List.length_cons, List.length_nil,
          List.length_replicate]
        have := align4_ge (s.length + 1)
        omega
  | blob d =>
    simp only [addArg, OSCMessage.addBlob] at h
    obtain ⟨hd1, _hd2⟩ := ha
    rw [sizeTCast_ofNat d.length (by omega)] at h
    rw [Nat.mod_eq_of_lt (show d.length + 3 < 18446744073709551616 by omega)] at h
    rw [Nat.mod_eq_of_lt (show 4 + (d.length + 3) / 4 * 4 < 18446744073709551616 by omega)] at h
    split at h
    case isFalse => simp at h
    case isTrue hcan =>
      simp only [OSCMessage.canAddArg, Bool.and_eq_true, decide_eq_true_eq] at hcan
      simp only [Prod.mk.injEq, true_and] at h
      rw [List.take_of_length_le (Nat.le_refl d.length)] at h
      rw [show (m.mArgBuffer ++ storeLE32 (swap_endian32 (u32ofInt (d.length : Int)))) ++ d
            = m.mArgBuffer ++ (storeLE32 (swap_endian32 (u32ofInt (d.length : Int))) ++ d)
          by simp] at h
      rw [padTo4_append _ _ hmod] at h
      have hcount : align4 ((storeLE32 (swap_endian32 (u32ofInt (d.length : Int))) ++ d).length)
            - (storeLE32 (swap_endian32 (u32ofInt (d.length : Int))) ++ d).length
          = align4 d.length - d.length := by
        simp only [List.length_append, storeLE32, List.length_cons, List.length_nil, align4]
        omega
      rw [hcount] at h
      refine ⟨?_, hcan.1, Or.inl ?_⟩
      · rw [← h]
        simp [encodeArg, tagOf, List.append_assoc]
      · simp only [encodeArg, List.length_append, List.length_replicate, storeLE32,
          List.length_cons, List.length_nil, align4]
        omega
  | int v =>
    simp only [addArg, OSCMessage.addInt] at h
    split at h
    case isFalse => simp at h
    case isTrue hcan =>
      simp only [OSCMessage.canAddArg, Bool.and_eq_true, decide_eq_true_eq] at hcan
      simp only [Prod.mk.injEq, true_and] at h
      exact ⟨by rw [← h]; simp [encodeArg, tagOf],
        hcan.1, Or.inl (by simp [encodeArg, storeLE32]; omega)⟩
  | float bits =>
    simp only [addArg, OSCMessage.addFloat] at h
    split at h
    case isFalse => simp at h
    case isTrue hcan =>
      simp only [OSCMessage.canAddArg, Bool.and_eq_true, decide_eq_true_eq] at hcan
      simp only [Prod.mk.injEq, true_and] at h
      exact ⟨by rw [← h]; simp [encodeArg, tagOf],
        hcan.1, Or.inl (by simp [encodeArg, storeLE32]; omega)⟩
  | int64 v =>
    simp only [addArg, OSCMessage.addInt64] at h
    split at h
    case isFalse => simp at h
    case isTrue hcan =>
      simp only [OSCMessage.canAddArg, Bool.and_eq_true, decide_eq_true_eq] at hcan
      simp only [Prod.mk.injEq, true_and] at h
      exact ⟨by rw [← h]; simp [encodeArg, tagOf],
        hcan.1, Or.inl (by simp [encodeArg, storeLE64]; omega)⟩
  | double bits =>
    simp only [addArg, OSCMessage.addDouble] at h
    split at h
    case isFalse => simp at h
    case isTrue hcan =>
      simp only [OSCMessage.canAddArg, Bool.and_eq_true, decide_eq_true_eq] at hcan
      simp only [Prod.mk.injEq, true_and] at h
      exact ⟨by rw [← h]; simp [encodeArg, tagOf],
        hcan.1, Or.inl (by simp [encodeArg, storeLE64]; omega)⟩
  | timetag s f =>
    simp only [addArg, OSCMessage.addTimetag] at h
    split at h
    case isFalse => simp at h
    case isTrue hcan =>
      simp only [OSCMessage.canAddArg, Bool.and_eq_true, decide_eq_true_eq] at hcan
      simp only [Prod.mk.injEq, true_and] at h
      exact ⟨by rw [← h]; simp [encodeArg, tagOf],
        hcan.1, Or.inl (by simp [encodeArg, storeLE32]; omega)⟩
  | bTrue =>
    simp only [addArg, OSCMessage.addTrue] at h
    split at h
    case isTrue => simp at h
    case isFalse hcan =>
      simp only [Prod.mk.injEq, true_and] at h
      exact ⟨by rw [← h]; simp [encodeArg, tagOf], by omega, Or.inr (by simp [encodeArg])⟩
  | bFalse =>
    simp only [addArg, OSCMessage.addFalse] at h
    split at h
    case isTrue => simp at h
    case isFalse hcan =>
      simp only [Prod.mk.injEq, true_and] at h
      exact ⟨by rw [← h]; simp [encodeArg, tagOf], by omega, Or.inr (by simp [encodeArg])⟩
  | bNil =>
    simp only [addArg, OSCMessage.addNil] at h
    split at h
    case isTrue => simp at h
    case isFalse hcan =>
      simp only [Prod.mk.injEq, true_and] at h
      exact ⟨by rw [← h]; simp [encodeArg, tagOf], by omega, Or.inr (by simp [encodeArg])⟩
  | bInf =>
    simp only [addArg, OSCMessage.addInfinitum] at h
    split at h
    case isTrue => simp at h
    case isFalse hcan =>
      simp only [Prod.mk.injEq, true_and] at h
      exact ⟨by rw [← h]; simp [encodeArg, tagOf], by omega, Or.inr (by simp [encodeArg])⟩
  | midi p s d1 d2 =>
    simp only [addArg, OSCMessage.addMidi] at h
    split at h
    case isFalse => simp at h
    case isTrue hcan =>
      simp only [OSCMessage.canAddArg, Bool.and_eq_true, decide_eq_true_eq] at hcan
      simp only [Prod.mk.injEq, true_and] at h
      exact ⟨by rw [← h]; simp [encodeArg, tagOf],
        hcan.1, Or.inl (by simp [encodeArg]; omega)⟩
  | char c =>
    simp only [addArg, OSCMessage.addChar] at h
    split at h
    case isFalse => simp at h
    case isTrue hcan =>
      simp only [OSCMessage.canAddArg, Bool.and_eq_true, decide_eq_true_eq] at hcan
      simp only [Prod.mk.injEq, true_and] at h
      exact ⟨by rw [← h]; simp [encodeArg, tagOf],
        hcan.1, Or.inl (by simp [encodeArg]; omega)⟩
  | color r g b a2 =>
    simp only [addArg, OSCMessage.addColor] at h
    split at h
    case isFalse => simp at h
    case isTrue hcan =>
      simp only [OSCMessage.canAddArg, Bool.and_eq_true, decide_eq_true_eq] at hcan
      simp only [Prod.mk.injEq, true_and] at h
      exact ⟨by rw [← h]; simp [encodeArg, tagOf],
        hcan.1, Or.inl (by simp [encodeArg]; omega)⟩

/-- A successful sequence of `add*` calls appends the tags and payload
encodings in order and preserves the capacity invariants. -/
theorem addArgs_some (args : List BArg) : ∀ (m m' : OSCMessage),
    (∀ a ∈ args, ArgWF a) → m.mArgBuffer.length % 4 = 0 → m.mTypeTags.length ≤ 63 →
    m.mArgBuffer.length ≤ 768 → addArgs m args = some m' →
    m'.mAddress = m.mAddress ∧ m'.mTypeTags = m.mTypeTags ++ tagsOf args
      ∧ m'.mArgBuffer = m.mArgBuffer ++ encodeArgs args
      ∧ m'.mTypeTags.length ≤ 63 ∧ m'.mArgBuffer.length ≤ 768
      ∧ m'.mArgBuffer.length % 4 = 0 := by
  induction args with
  | nil =>
    intro m m' _ hmod htag hbuf h
    simp only [addArgs, Option.some.injEq] at h
    subst h
    simp [tagsOf, encodeArgs, hmod, htag, hbuf]
  | cons a rest ih =>
    intro m m' hw hmod htag hbuf h
    simp only [addArgs] at h
    split at h
    case isFalse => simp at h
    case isTrue hok =>
      have ha : addArg m a = (true, (addArg m a).2) := by
        cases hr : addArg m a
        simp only [hr] at hok
        simp [hok, hr]
      obtain ⟨heq, htaglt, hle⟩ :=
        addArg_true m a (addArg m a).2 (hw a (List.mem_cons_self a rest)) hmod ha
      have hmod2 : (addArg m a).2.mArgBuffer.length % 4 = 0 := by
        rw [heq]
        simp only [List.length_append]
        have := encodeArg_length_mod a
        omega
      have htag2 : (addArg m a).2.mTypeTags.length ≤ 63 := by
        rw [heq]
        simp only [List.length_append, List.length_cons, List.length_nil]
        omega
      have hbuf2 : (addArg m a).2.mArgBuffer.length ≤ 768 := by
        rw [heq]
        simp only [List.length_append]
        omega
      obtain ⟨h1, h2, h3, h4, h5, h6⟩ :=
        ih (addArg m a).2 m' (fun b hb => hw b (List.mem_cons_of_mem a hb)) hmod2 htag2 hbuf2 h
      rw [heq] at h1 h2 h3
      refine ⟨h1, ?_, ?_, h4, h5, h6⟩
      · rw [h2]
        simp [tagsOf, List.append_assoc]
      · rw [h3]
        simp [encodeArgs, List.append_assoc]

/-- A successful `setAddress` stores the terminated, padded address. -/
theorem setAddress_true (m : OSCMessage) (addr : List Nat) (m' : OSCMessage)
    (h : m.setAddress addr = (true, m')) :
    m' = { m with mAddress := addr ++ [0]
            ++ List.replicate (align4 (addr.length + 1) - (addr.length + 1)) 0 }
      ∧ addr.length < 256 := by
  simp only [OSCMessage.setAddress] at h
  split at h
  case isTrue => simp at h
  case isFalse hlt =>
    simp only [Prod.mk.injEq, true_and] at h
    constructor
    · rw [← h]
      simp only [padTo4, List.length_append, List.length_cons, List.length_nil,
        List.append_assoc]
    · omega

/-- Characterization of a message assembled by `buildMsg`: its three
buffers in terms of the inputs, plus the capacity invariants. -/
theorem buildMsg_some (addr : List Nat) (args : List BArg) (m : OSCMessage)
    (hw : ∀ a ∈ args, ArgWF a) (h : buildMsg addr args = some m) :
    m.mAddress = addr ++ [0]
        ++ List.replicate (align4 (addr.length + 1) - (addr.length + 1)) 0
      ∧ m.mTypeTags = tagsOf args ∧ m.mArgBuffer = encodeArgs args
      ∧ m.mTypeTags.length ≤ 63 ∧ m.mArgBuffer.length ≤ 768
      ∧ m.mArgBuffer.length % 4 = 0
      ∧ m.mAddress.length = align4 (addr.length + 1) ∧ addr.length < 256 := by
  simp only [buildMsg] at h
  split at h
  case isFalse => simp at h
  case isTrue hok =>
    set r := OSCMessage.cleared.setAddress addr with hr
    have hr2 : OSCMessage.cleared.setAddress addr = (true, r.2) := by
      rw [← hr]
      cases hx : r
      simp only [hx] at hok
      simp [hok]
    obtain ⟨heq, hlt⟩ := setAddress_true _ _ _ hr2
    have h2 : r.2.mArgBuffer.length % 4 = 0 := by rw [heq]; rfl
    have h3 : r.2.mTypeTags.length ≤ 63 := by rw [heq]; simp [OSCMessage.cleared]
    have h4 : r.2.mArgBuffer.length ≤ 768 := by rw [heq]; simp [OSCMessage.cleared]
    obtain ⟨g1, g2, g3, g4, g5, g6⟩ := addArgs_some args r.2 m hw h2 h3 h4 h
    rw [heq] at g1 g2 g3
    simp only [OSCMessage.cleared, List.nil_append] at g1 g2 g3
    refine ⟨g1, g2, g3, g4, g5, g6, ?_, hlt⟩
    rw [g1]
    simp only [List.length_append, List.length_cons, List.length_nil, List.length_replicate]
    have := align4_ge (addr.length + 1)
    omega

/-! ### Single steps of the argument-decoding loop -/

theorem parseArgs_cons_next (buf : List Nat) (pos : Nat) (c : Nat) (rest : List Nat)
    (args : List OSCArg) (arg : OSCArg) (pos' : Nat) (hlen : args.length < 64)
    (hstep : parseArgsStep buf pos c = .next arg pos') :
    parseArgs buf pos (c :: rest) args = parseArgs buf pos' rest (args ++ [arg]) := by
  rw [parseArgs, if_neg (by omega : ¬ 64 ≤ args.length), hstep]

theorem parseArgs_cons_fails (buf : List Nat) (pos : Nat) (c : Nat) (rest : List Nat)
    (args : List OSCArg) (hlen : args.length < 64)
    (hstep : parseArgsStep buf pos c = .fails) :
    parseArgs buf pos (c :: rest) args = .failp args := by
  rw [parseArgs, if_neg (by omega : ¬ 64 ≤ args.length), hstep]

theorem parseArgs_cons_full (buf : List Nat) (pos : Nat) (c : Nat) (rest : List Nat)
    (args : List OSCArg) (hlen : 64 ≤ args.length) :
    parseArgs buf pos (c :: rest) args = .done args := by
  rw [parseArgs, if_pos hlen]

theorem parseArgs_int (buf : List Nat) (pos : Nat) (rest : List Nat) (args : List OSCArg)
    (b0 b1 b2 b3 : Nat) (hlen : args.length < 64)
    (hpos : pos + 4 ≤ buf.length) (hb : bytes4 buf pos = some (b0, b1, b2, b3)) :
    parseArgs buf pos (105 :: rest) args
      = parseArgs buf (pos + 4) rest
          (args ++ [⟨105, .vi (i32ofU32 (swap_endian32 (word32LE b0 b1 b2 b3)))⟩]) := by
  refine parseArgs_cons_next _ _ _ _ _ _ _ hlen ?_
  rw [parseArgsStep]
  simp only [hb, if_neg (by omega : ¬ pos + 4 > buf.length)]
  simp

theorem parseArgs_float (buf : List Nat) (pos : Nat) (rest : List Nat) (args : List OSCArg)
    (b0 b1 b2 b3 : Nat) (hlen : args.length < 64)
    (hpos : pos + 4 ≤ buf.length) (hb : bytes4 buf pos = some (b0, b1, b2, b3)) :
    parseArgs buf pos (102 :: rest) args
      = parseArgs buf (pos + 4) rest
          (args ++ [⟨102, .vf (swap_endian32 (word32LE b0 b1 b2 b3))⟩]) := by
  refine parseArgs_cons_next _ _ _ _ _ _ _ hlen ?_
  rw [parseArgsStep]
  simp only [hb, if_neg (by omega : ¬ pos + 4 > buf.length)]
  simp

theorem parseArgs_str (buf : List Nat) (pos : Nat) (rest : List Nat) (args : List OSCArg)
    (hlen : args.length < 64) (hscan : scanNul buf pos < buf.length) :
    parseArgs buf pos (115 :: rest) args
      = parseArgs buf (align4 (scanNul buf pos + 1)) rest (args ++ [⟨115, .vs pos⟩]) := by
  refine parseArgs_cons_next _ _ _ _ _ _ _ hlen ?_
  rw [parseArgsStep]
  simp only [if_neg (by omega : ¬ scanNul buf pos ≥ buf.length)]
  simp

theorem parseArgs_blob (buf : List Nat) (pos : Nat) (rest : List Nat) (args : List OSCArg)
    (b0 b1 b2 b3 : Nat) (hlen : args.length < 64)
    (hpos : pos + 4 ≤ buf.length) (hb : bytes4 buf pos = some (b0, b1, b2, b3))
    (hadv : (pos + 4 + sizeTCast (i32ofU32 (swap_endian32 (word32LE b0 b1 b2 b3))))
        % 18446744073709551616 ≤ buf.length) :
    parseArgs buf pos (98 :: rest) args
      = parseArgs buf
          (align4 ((pos + 4 + sizeTCast (i32ofU32 (swap_endian32 (word32LE b0 b1 b2 b3))))
            % 18446744073709551616))
          rest
          (args ++ [⟨98, .vblob (pos + 4) (i32ofU32 (swap_endian32 (word32LE b0 b1 b2 b3)))⟩]) := by
  refine parseArgs_cons_next _ _ _ _ _ _ _ hlen ?_
  rw [parseArgsStep]
  simp only [hb, if_neg (by omega : ¬ pos + 4 > buf.length)]
  simp only [if_neg (by omega :
    ¬ (pos + 4 + sizeTCast (i32ofU32 (swap_endian32 (word32LE b0 b1 b2 b3))))
        % 18446744073709551616 > buf.length)]
  simp

theorem parseArgs_int64 (buf : List Nat) (pos : Nat) (rest : List Nat) (args : List OSCArg)
    (b0 b1 b2 b3 b4 b5 b6 b7 : Nat) (hlen : args.length < 64)
    (hpos : pos + 8 ≤ buf.length)
    (hb : bytes8 buf pos = some (b0, b1, b2, b3, b4, b5, b6, b7)) :
    parseArgs buf pos (104 :: rest) args
      = parseArgs buf (pos + 8) rest
          (args ++ [⟨104, .vh (i64ofU64 (swap_endian64 (word64LE b0 b1 b2 b3 b4 b5 b6 b7)))⟩]) := by
  refine parseArgs_cons_next _ _ _ _ _ _ _ hlen ?_
  rw [parseArgsStep]
  simp only [hb, if_neg (by omega : ¬ pos + 8 > buf.length)]
  simp

theorem parseArgs_double (buf : List Nat) (pos : Nat) (rest : List Nat) (args : List OSCArg)
    (b0 b1 b2 b3 b4 b5 b6 b7 : Nat) (hlen : args.length < 64)
    (hpos : pos + 8 ≤ buf.length)
    (hb : bytes8 buf pos = some (b0, b1, b2, b3, b4, b5, b6, b7)) :
    parseArgs buf pos (100 :: rest) args
      = parseArgs buf (pos + 8) rest
          (args ++ [⟨100, .vd (swap_endian64 (word64LE b0 b1 b2 b3 b4 b5 b6 b7))⟩]) := by
  refine parseArgs_cons_next _ _ _ _ _ _ _ hlen ?_
  rw [parseArgsStep]
  simp only [hb, if_neg (by omega : ¬ pos + 8 > buf.length)]
  simp

theorem parseArgs_timetag (buf : List Nat) (pos : Nat) (rest : List Nat) (args : List OSCArg)
    (b0 b1 b2 b3 b4 b5 b6 b7 : Nat) (hlen : args.length < 64)
    (hpos : pos + 8 ≤ buf.length)
    (hb1 : bytes4 buf pos = some (b0, b1, b2, b3))
    (hb2 : bytes4 buf (pos + 4) = some (b4, b5, b6, b7)) :
    parseArgs buf pos (116 :: rest) args
      = parseArgs buf (pos + 8) rest
          (args ++ [⟨116, .vt (swap_endian32 (word32LE b0 b1 b2 b3))
                              (swap_endian32 (word32LE b4 b5 b6 b7))⟩]) := by
  refine parseArgs_cons_next _ _ _ _ _ _ _ hlen ?_
  rw [parseArgsStep]
  simp only [hb1, hb2, if_neg (by omega : ¬ pos + 8 > buf.length)]
  simp

theorem parseArgs_midi (buf : List Nat) (pos : Nat) (rest : List Nat) (args : List OSCArg)
    (b0 b1 b2 b3 : Nat) (hlen : args.length < 64)
    (hpos : pos + 4 ≤ buf.length) (hb : bytes4 buf pos = some (b0, b1, b2, b3)) :
    parseArgs buf pos (109 :: rest) args
      = parseArgs buf (pos + 4) rest (args ++ [⟨109, .vmidi b0 b1 b2 b3⟩]) := by
  refine parseArgs_cons_next _ _ _ _ _ _ _ hlen ?_
  rw [parseArgsStep]
  simp only [hb, if_neg (by omega : ¬ pos + 4 > buf.length)]
  simp

theorem parseArgs_char (buf : List Nat) (pos : Nat) (rest : List Nat) (args : List OSCArg)
    (b : Nat) (hlen : args.length < 64)
    (hpos : pos + 4 ≤ buf.length) (hb : buf.get? (pos + 3) = some b) :
    parseArgs buf pos (99 :: rest) args
      = parseArgs buf (pos + 4) rest (args ++ [⟨99, .vc b⟩]) := by
  refine parseArgs_cons_next _ _ _ _ _ _ _ hlen ?_
  rw [parseArgsStep]
  simp only [hb, if_neg (by omega : ¬ pos + 4 > buf.length)]
  simp

theorem parseArgs_color (buf : List Nat) (pos : Nat) (rest : List Nat) (args : List OSCArg)
    (b0 b1 b2 b3 : Nat) (hlen : args.length < 64)
    (hpos : pos + 4 ≤ buf.length) (hb : bytes4 buf pos = some (b0, b1, b2, b3)) :
    parseArgs buf pos (114 :: rest) args
      = parseArgs buf (pos + 4) rest (args ++ [⟨114, .vcolor b0 b1 b2 b3⟩]) := by
  refine parseArgs_cons_next _ _ _ _ _ _ _ hlen ?_
  rw [parseArgsStep]
  simp only [hb, if_neg (by omega : ¬ pos + 4 > buf.length)]
  simp

theorem parseArgs_tagOnly (buf : List Nat) (pos : Nat) (rest : List Nat) (args : List OSCArg)
    (c : Nat) (hc : c = 84 ∨ c = 70 ∨ c = 78 ∨ c = 73) (hlen : args.length < 64) :
    parseArgs buf pos (c :: rest) args
      = parseArgs buf pos rest (args ++ [⟨c, .noPayload⟩]) := by
  refine parseArgs_cons_next _ _ _ _ _ _ _ hlen ?_
  rcases hc with rfl | rfl | rfl | rfl <;> rfl

/-- The `default:` case of the switch: a tag character outside the
recognized alphabet consumes no bytes, is recorded as a payload-free
slot, and decoding continues at the unchanged position. -/
theorem parseArgs_unknown (buf : List Nat) (pos : Nat) (rest : List Nat) (args : List OSCArg)
    (c : Nat)
    (hc : c ≠ 105 ∧ c ≠ 102 ∧ c ≠ 115 ∧ c ≠ 83 ∧ c ≠ 98 ∧ c ≠ 104 ∧ c ≠ 100 ∧ c ≠ 116
      ∧ c ≠ 109 ∧ c ≠ 99 ∧ c ≠ 114 ∧ c ≠ 84 ∧ c ≠ 70 ∧ c ≠ 78 ∧ c ≠ 73)
    (hlen : args.length < 64) :
    parseArgs buf pos (c :: rest) args
      = parseArgs buf pos rest (args ++ [⟨c, .noPayload⟩]) := by
  obtain ⟨h1, h2, h3, h4, h5, h6, h7, h8, h9, h10, h11, h12, h13, h14, h15⟩ := hc
  refine parseArgs_cons_next _ _ _ _ _ _ _ hlen ?_
  rw [parseArgsStep]
  simp only [if_neg h1, if_neg h2,
    if_neg (by tauto : ¬ (c = 115 ∨ c = 83)), if_neg h5, if_neg h6, if_neg h7, if_neg h8,
    if_neg h9, if_neg h10, if_neg h11,
    if_neg (by tauto : ¬ (c = 84 ∨ c = 70 ∨ c = 78 ∨ c = 73))]

/-! ### The argument loop on built payloads -/

theorem encodeArgs_cons (a : BArg) (rest : List BArg) :
    encodeArgs (a :: rest) = encodeArg a ++ encodeArgs rest := by
  simp [encodeArgs]

theorem tagsOf_cons (a : BArg) (rest : List BArg) :
    tagsOf (a :: rest) = tagOf a :: tagsOf rest := by
  simp [tagsOf]


theorem bytes4_encode (pre r : List Nat) (x : Nat) :
    bytes4 (pre ++ (storeLE32 x ++ r)) pre.length
      = some (x % 256, x / 256 % 256, x / 65536 % 256, x / 16777216 % 256) := by
  have h := bytes4_at pre (x % 256) (x / 256 % 256) (x / 65536 % 256) (x / 16777216 % 256) r
  simpa [storeLE32] using h

theorem bytes8_encode (pre r : List Nat) (x : Nat) :
    bytes8 (pre ++ (storeLE64 x ++ r)) pre.length
      = some (x % 256, x / 256 % 256, x / 65536 % 256, x / 16777216 % 256,
          x / 4294967296 % 256, x / 1099511627776 % 256, x / 281474976710656 % 256,
          x / 72057594037927936 % 256) := by
  have h := bytes8_at pre (x % 256) (x / 256 % 256) (x / 65536 % 256) (x / 16777216 % 256)
    (x / 4294967296 % 256) (x / 1099511627776 % 256) (x / 281474976710656 % 256)
    (x / 72057594037927936 % 256) r
  simpa [storeLE64] using h

theorem parseArgs_encode (bargs : List BArg) : ∀ (pre suf : List Nat) (acc : List OSCArg),
    (∀ a ∈ bargs, ArgWF a) → pre.length % 4 = 0 → acc.length + bargs.length ≤ 64 →
    pre.length + (encodeArgs bargs).length < 18446744073709551616 →
    ∃ res, parseArgs (pre ++ (encodeArgs bargs ++ suf)) pre.length (tagsOf bargs) acc
        = ArgsRes.done (acc ++ res)
      ∧ List.Forall₂ (Reproduces (pre ++ (encodeArgs bargs ++ suf))) bargs res := by
  induction bargs with
  | nil =>
    intro pre suf acc _ _ _ _
    refine ⟨[], ?_, List.Forall₂.nil⟩
    simp [tagsOf, parseArgs]
  | cons a rest ih =>
    intro pre suf acc hw hmod hcount hbig
    have hwa : ArgWF a := hw a (List.mem_cons_self a rest)
    have hwr : ∀ b ∈ rest, ArgWF b := fun b hb => hw b (List.mem_cons_of_mem a hb)
    have hbuf : pre ++ (encodeArgs (a :: rest) ++ suf)
        = (pre ++ encodeArg a) ++ (encodeArgs rest ++ suf) := by
      rw [encodeArgs_cons]
      simp [List.append_assoc]
    have hmod2 : (pre ++ encodeArg a).length % 4 = 0 := by
      simp only [List.length_append]
      have := encodeArg_length_mod a
      omega
    have hbig2 : (pre ++ encodeArg a).length + (encodeArgs rest).length
        < 18446744073709551616 := by
      rw [encodeArgs_cons] at hbig
      simp only [List.length_append] at hbig ⊢
      omega
    have hlen : acc.length < 64 := by
      simp only [List.length_cons] at hcount
      omega
    rw [tagsOf_cons, hbuf]
    -- the continuation shared by every case
    have glue : ∀ (p : OSCArg),
        Reproduces ((pre ++ encodeArg a) ++ (encodeArgs rest ++ suf)) a p →
        parseArgs ((pre ++ encodeArg a) ++ (encodeArgs rest ++ suf)) pre.length
            (tagOf a :: tagsOf rest) acc
          = parseArgs ((pre ++ encodeArg a) ++ (encodeArgs rest ++ suf))
              (pre ++ encodeArg a).length (tagsOf rest) (acc ++ [p]) →
        ∃ res,
          parseArgs ((pre ++ encodeArg a) ++ (encodeArgs rest ++ suf)) pre.length
              (tagOf a :: tagsOf rest) acc = ArgsRes.done (acc ++ res)
            ∧ List.Forall₂ (Reproduces ((pre ++ encodeArg a) ++ (encodeArgs rest ++ suf)))
                (a :: rest) res := by
      intro p hrep hstep
      have hcount2 : (acc ++ [p]).length + rest.length ≤ 64 := by
        simp only [List.length_append, List.length_cons, List.length_nil] at hcount ⊢
        omega
      obtain ⟨res', heq, hfa⟩ := ih (pre ++ encodeArg a) suf (acc ++ [p]) hwr hmod2 hcount2 hbig2
      refine ⟨p :: res', ?_, List.Forall₂.cons hrep hfa⟩
      rw [hstep, heq]
      simp
    cases a with
    | int v =>
      simp only [ArgWF] at hwa
      refine glue ⟨105, .vi v⟩ (by simp [Reproduces]) ?_
      have hb : bytes4 ((pre ++ encodeArg (.int v)) ++ (encodeArgs rest ++ suf)) pre.length
          = some (swap_endian32 (u32ofInt v) % 256, swap_endian32 (u32ofInt v) / 256 % 256,
              swap_endian32 (u32ofInt v) / 65536 % 256,
              swap_endian32 (u32ofInt v) / 16777216 % 256) := by
        simpa [encodeArg, List.append_assoc] using
          bytes4_encode pre (encodeArgs rest ++ suf) (swap_endian32 (u32ofInt v))
      have hpos : pre.length + 4 ≤ ((pre ++ encodeArg (.int v)) ++ (encodeArgs rest ++ suf)).length := by
        simp [encodeArg, storeLE32]
      simp only [tagOf]
      rw [parseArgs_int _ _ _ _ _ _ _ _ hlen hpos hb]
      have hval : i32ofU32 (swap_endian32 (word32LE (swap_endian32 (u32ofInt v) % 256)
          (swap_endian32 (u32ofInt v) / 256 % 256) (swap_endian32 (u32ofInt v) / 65536 % 256)
          (swap_endian32 (u32ofInt v) / 16777216 % 256))) = v := by
        rw [decode32_store _ (u32ofInt_lt v)]
        exact i32_roundtrip v hwa.1 hwa.2
      rw [hval, show (pre ++ encodeArg (.int v)).length = pre.length + 4 by
        simp [encodeArg, storeLE32]]
    | float bits =>
      simp only [ArgWF] at hwa
      refine glue ⟨102, .vf bits⟩ (by simp [Reproduces]) ?_
      have hb : bytes4 ((pre ++ encodeArg (.float bits)) ++ (encodeArgs rest ++ suf)) pre.length
          = some (swap_endian32 bits % 256, swap_endian32 bits / 256 % 256,
              swap_endian32 bits / 65536 % 256, swap_endian32 bits / 16777216 % 256) := by
        simpa [encodeArg, List.append_assoc] using
          bytes4_encode pre (encodeArgs rest ++ suf) (swap_endian32 bits)
      have hpos : pre.length + 4
          ≤ ((pre ++ encodeArg (.float bits)) ++ (encodeArgs rest ++ suf)).length := by
        simp [encodeArg, storeLE32]
      simp only [tagOf]
      rw [parseArgs_float _ _ _ _ _ _ _ _ hlen hpos hb]
      have hval : swap_endian32 (word32LE (swap_endian32 bits % 256)
          (swap_endian32 bits / 256 % 256) (swap_endian32 bits / 65536 % 256)
          (swap_endian32 bits / 16777216 % 256)) = bits := decode32_store bits hwa
      rw [hval, show (pre ++ encodeArg (.float bits)).length = pre.length + 4 by
        simp [encodeArg, storeLE32]]
    | str s =>
      simp only [ArgWF] at hwa
      have hshape : (pre ++ encodeArg (.str s)) ++ (encodeArgs rest ++ suf)
          = pre ++ (s ++ 0 :: (List.replicate (align4 (s.length + 1) - (s.length + 1)) 0
              ++ (encodeArgs rest ++ suf))) := by
        simp [encodeArg, List.append_assoc]
      have hsc : scanNul ((pre ++ encodeArg (.str s)) ++ (encodeArgs rest ++ suf)) pre.length
          = pre.length + s.length := by
        rw [hshape]
        exact scanNul_at pre s _ (fun b hb => (hwa b hb).1)
      have hread : readCStr ((pre ++ encodeArg (.str s)) ++ (encodeArgs rest ++ suf)) pre.length
          = s := by
        rw [hshape]
        exact readCStr_at pre s _ (fun b hb => (hwa b hb).1)
      refine glue ⟨115, .vs pre.length⟩ ⟨pre.length, rfl, hread⟩ ?_
      have hscan : scanNul ((pre ++ encodeArg (.str s)) ++ (encodeArgs rest ++ suf)) pre.length
          < ((pre ++ encodeArg (.str s)) ++ (encodeArgs rest ++ suf)).length := by
        rw [hsc]
        simp only [List.length_append, encodeArg, List.length_cons, List.length_nil,
          List.length_replicate]
        omega
      simp only [tagOf]
      rw [parseArgs_str _ _ _ _ hlen hscan, hsc]
      have hl : align4 (pre.length + s.length + 1) = (pre ++ encodeArg (.str s)).length := by
        simp only [List.length_append, encodeArg, List.length_cons, List.length_nil,
          List.length_replicate, List.length_append]
        rw [show pre.length + s.length + 1 = pre.length + (s.length + 1) by omega,
          align4_add_of_mod _ _ hmod]
        have := align4_ge (s.length + 1)
        omega
      rw [hl]
    | blob d =>
      simp only [ArgWF] at hwa
      have hx : (pre ++ encodeArg (.blob d)) ++ (encodeArgs rest ++ suf)
          = pre ++ (storeLE32 (swap_endian32 (u32ofInt (d.length : Int)))
              ++ (d ++ (List.replicate (align4 d.length - d.length) 0
                  ++ (encodeArgs rest ++ suf)))) := by
        simp [encodeArg, List.append_assoc]
      have hb : bytes4 ((pre ++ encodeArg (.blob d)) ++ (encodeArgs rest ++ suf)) pre.length
          = some (swap_endian32 (u32ofInt (d.length : Int)) % 256,
              swap_endian32 (u32ofInt (d.length : Int)) / 256 % 256,
              swap_endian32 (u32ofInt (d.length : Int)) / 65536 % 256,
              swap_endian32 (u32ofInt (d.length : Int)) / 16777216 % 256) := by
        rw [hx]
        exact bytes4_encode pre _ (swap_endian32 (u32ofInt (d.length : Int)))
      have hval : i32ofU32 (swap_endian32 (word32LE
          (swap_endian32 (u32ofInt (d.length : Int)) % 256)
          (swap_endian32 (u32ofInt (d.length : Int)) / 256 % 256)
          (swap_endian32 (u32ofInt (d.length : Int)) / 65536 % 256)
          (swap_endian32 (u32ofInt (d.length : Int)) / 16777216 % 256))) = (d.length : Int) := by
        rw [decode32_store _ (u32ofInt_lt _)]
        exact i32_roundtrip _ (by omega) (by exact_mod_cast hwa.1)
      have hslice : sliceOf ((pre ++ encodeArg (.blob d)) ++ (encodeArgs rest ++ suf))
          (pre.length + 4) d.length = d := by
        have h2 : (pre ++ encodeArg (.blob d)) ++ (encodeArgs rest ++ suf)
            = (pre ++ storeLE32 (swap_endian32 (u32ofInt (d.length : Int))))
              ++ (d ++ (List.replicate (align4 d.length - d.length) 0
                  ++ (encodeArgs rest ++ suf))) := by
          simp [encodeArg, List.append_assoc]
        rw [h2, show pre.length + 4
            = (pre ++ storeLE32 (swap_endian32 (u32ofInt (d.length : Int)))).length by
          simp [storeLE32]]
        exact sliceOf_at _ d _
      refine glue ⟨98, .vblob (pre.length + 4) (d.length : Int)⟩
        ⟨pre.length + 4, rfl, hslice⟩ ?_
      have hpos : pre.length + 4
          ≤ ((pre ++ encodeArg (.blob d)) ++ (encodeArgs rest ++ suf)).length := by
        simp [encodeArg, storeLE32]
      have hcast : sizeTCast (i32ofU32 (swap_endian32 (word32LE
          (swap_endian32 (u32ofInt (d.length : Int)) % 256)
          (swap_endian32 (u32ofInt (d.length : Int)) / 256 % 256)
          (swap_endian32 (u32ofInt (d.length : Int)) / 65536 % 256)
          (swap_endian32 (u32ofInt (d.length : Int)) / 16777216 % 256)))) = d.length := by
        rw [hval]
        exact sizeTCast_ofNat d.length (by omega)
      have hmodid : (pre.length + 4 + d.length) % 18446744073709551616
          = pre.length + 4 + d.length := by
        apply Nat.mod_eq_of_lt
        rw [encodeArgs_cons] at hbig
        simp only [List.length_append, encodeArg, List.length_cons, List.length_nil,
          List.length_replicate, storeLE32] at hbig
        omega
      have hadv : (pre.length + 4 + sizeTCast (i32ofU32 (swap_endian32 (word32LE
          (swap_endian32 (u32ofInt (d.length : Int)) % 256)
          (swap_endian32 (u32ofInt (d.length : Int)) / 256 % 256)
          (swap_endian32 (u32ofInt (d.length : Int)) / 65536 % 256)
          (swap_endian32 (u32ofInt (d.length : Int)) / 16777216 % 256)))))
          % 18446744073709551616
          ≤ ((pre ++ encodeArg (.blob d)) ++ (encodeArgs rest ++ suf)).length := by
        rw [hcast, hmodid]
        simp only [List.length_append, encodeArg, List.length_cons, List.length_nil,
          List.length_replicate, storeLE32]
        have := align4_ge d.length
        omega
      simp only [tagOf]
      rw [parseArgs_blob _ _ _ _ _ _ _ _ hlen hpos hb hadv, hcast, hmodid, hval]
      have hl : align4 (pre.length + 4 + d.length) = (pre ++ encodeArg (.blob d)).length := by
        simp only [List.length_append, encodeArg, List.length_cons, List.length_nil,
          List.length_replicate, List.length_append, storeLE32, align4]
        omega
      rw [hl]
    | int64 v =>
      simp only [ArgWF] at hwa
      refine glue ⟨104, .vh v⟩ (by simp [Reproduces]) ?_
      have hb : bytes8 ((pre ++ encodeArg (.int64 v)) ++ (encodeArgs rest ++ suf)) pre.length
          = some (swap_endian64 (u64ofInt v) % 256, swap_endian64 (u64ofInt v) / 256 % 256,
              swap_endian64 (u64ofInt v) / 65536 % 256,
              swap_endian64 (u64ofInt v) / 16777216 % 256,
              swap_endian64 (u64ofInt v) / 4294967296 % 256,
              swap_endian64 (u64ofInt v) / 1099511627776 % 256,
              swap_endian64 (u64ofInt v) / 281474976710656 % 256,
              swap_endian64 (u64ofInt v) / 72057594037927936 % 256) := by
        simpa [encodeArg, List.append_assoc] using
          bytes8_encode pre (encodeArgs rest ++ suf) (swap_endian64 (u64ofInt v))
      have hpos : pre.length + 8
          ≤ ((pre ++ encodeArg (.int64 v)) ++ (encodeArgs rest ++ suf)).length := by
        simp [encodeArg, storeLE64]
      simp only [tagOf]
      rw [parseArgs_int64 _ _ _ _ _ _ _ _ _ _ _ _ hlen hpos hb]
      have hval : i64ofU64 (swap_endian64 (word64LE (swap_endian64 (u64ofInt v) % 256)
          (swap_endian64 (u64ofInt v) / 256 % 256) (swap_endian64 (u64ofInt v) / 65536 % 256)
          (swap_endian64 (u64ofInt v) / 16777216 % 256)
          (swap_endian64 (u64ofInt v) / 4294967296 % 256)
          (swap_endian64 (u64ofInt v) / 1099511627776 % 256)
          (swap_endian64 (u64ofInt v) / 281474976710656 % 256)
          (swap_endian64 (u64ofInt v) / 72057594037927936 % 256))) = v := by
        rw [decode64_store _ (u64ofInt_lt v)]
        exact i64_roundtrip v hwa.1 hwa.2
      rw [hval, show (pre ++ encodeArg (.int64 v)).length = pre.length + 8 by
        simp [encodeArg, storeLE64]]
    | double bits =>
      simp only [ArgWF] at hwa
      refine glue ⟨100, .vd bits⟩ (by simp [Reproduces]) ?_
      have hb : bytes8 ((pre ++ encodeArg (.double bits)) ++ (encodeArgs rest ++ suf)) pre.length
          = some (swap_endian64 bits % 256, swap_endian64 bits / 256 % 256,
              swap_endian64 bits / 65536 % 256, swap_endian64 bits / 16777216 % 256,
              swap_endian64 bits / 4294967296 % 256, swap_endian64 bits / 1099511627776 % 256,
              swap_endian64 bits / 281474976710656 % 256,
              swap_endian64 bits / 72057594037927936 % 256) := by
        simpa [encodeArg, List.append_assoc] using
          bytes8_encode pre (encodeArgs rest ++ suf) (swap_endian64 bits)
      have hpos : pre.length + 8
          ≤ ((pre ++ encodeArg (.double bits)) ++ (encodeArgs rest ++ suf)).length := by
        simp [encodeArg, storeLE64]
      simp only [tagOf]
      rw [parseArgs_double _ _ _ _ _ _ _ _ _ _ _ _ hlen hpos hb]
      have hval : swap_endian64 (word64LE (swap_endian64 bits % 256)
          (swap_endian64 bits / 256 % 256) (swap_endian64 bits / 65536 % 256)
          (swap_endian64 bits / 16777216 % 256) (swap_endian64 bits / 4294967296 % 256)
          (swap_endian64 bits / 1099511627776 % 256)
          (swap_endian64 bits / 281474976710656 % 256)
          (swap_endian64 bits / 72057594037927936 % 256)) = bits := decode64_store bits hwa
      rw [hval, show (pre ++ encodeArg (.double bits)).length = pre.length + 8 by
        simp [encodeArg, storeLE64]]
    | timetag sf ff =>
      simp only [ArgWF] at hwa
      refine glue ⟨116, .vt sf ff⟩ (by simp [Reproduces]) ?_
      have hb1 : bytes4 ((pre ++ encodeArg (.timetag sf ff)) ++ (encodeArgs rest ++ suf))
          pre.length
          = some (swap_endian32 sf % 256, swap_endian32 sf / 256 % 256,
              swap_endian32 sf / 65536 % 256, swap_endian32 sf / 16777216 % 256) := by
        simpa [encodeArg, List.append_assoc] using
          bytes4_encode pre (storeLE32 (swap_endian32 ff) ++ (encodeArgs rest ++ suf))
            (swap_endian32 sf)
      have hb2 : bytes4 ((pre ++ encodeArg (.timetag sf ff)) ++ (encodeArgs rest ++ suf))
          (pre.length + 4)
          = some (swap_endian32 ff % 256, swap_endian32 ff / 256 % 256,
              swap_endian32 ff / 65536 % 256, swap_endian32 ff / 16777216 % 256) := by
        have h := bytes4_encode (pre ++ storeLE32 (swap_endian32 sf)) (encodeArgs rest ++ suf)
          (swap_endian32 ff)
        simp only [List.length_append, storeLE32, List.length_cons, List.length_nil] at h
        rw [show pre.length + 4 = pre.length + (0 + 1 + 1 + 1 + 1) by omega]
        simpa [encodeArg, List.append_assoc] using h
      have hpos : pre.length + 8
          ≤ ((pre ++ encodeArg (.timetag sf ff)) ++ (encodeArgs rest ++ suf)).length := by
        simp [encodeArg, storeLE32]
      simp only [tagOf]
      rw [parseArgs_timetag _ _ _ _ _ _ _ _ _ _ _ _ hlen hpos hb1 hb2]
      rw [decode32_store sf hwa.1, decode32_store ff hwa.2,
        show (pre ++ encodeArg (.timetag sf ff)).length = pre.length + 8 by
          simp [encodeArg, storeLE32]]
    | bTrue =>
      refine glue ⟨84, .noPayload⟩ (by simp [Reproduces]) ?_
      simp only [tagOf]
      rw [parseArgs_tagOnly _ _ _ _ 84 (by tauto) hlen,
        show (pre ++ encodeArg BArg.bTrue).length = pre.length by simp [encodeArg]]
    | bFalse =>
      refine glue ⟨70, .noPayload⟩ (by simp [Reproduces]) ?_
      simp only [tagOf]
      rw [parseArgs_tagOnly _ _ _ _ 70 (by tauto) hlen,
        show (pre ++ encodeArg BArg.bFalse).length = pre.length by simp [encodeArg]]
    | bNil =>
      refine glue ⟨78, .noPayload⟩ (by simp [Reproduces]) ?_
      simp only [tagOf]
      rw [parseArgs_tagOnly _ _ _ _ 78 (by tauto) hlen,
        show (pre ++ encodeArg BArg.bNil).length = pre.length by simp [encodeArg]]
    | bInf =>
      refine glue ⟨73, .noPayload⟩ (by simp [Reproduces]) ?_
      simp only [tagOf]
      rw [parseArgs_tagOnly _ _ _ _ 73 (by tauto) hlen,
        show (pre ++ encodeArg BArg.bInf).length = pre.length by simp [encodeArg]]
    | midi p1 s1 d1 d2 =>
      refine glue ⟨109, .vmidi p1 s1 d1 d2⟩ (by simp [Reproduces]) ?_
      have hb : bytes4 ((pre ++ encodeArg (.midi p1 s1 d1 d2)) ++ (encodeArgs rest ++ suf))
          pre.length = some (p1, s1, d1, d2) := by
        simpa [encodeArg, List.append_assoc] using
          bytes4_at pre p1 s1 d1 d2 (encodeArgs rest ++ suf)
      have hpos : pre.length + 4
          ≤ ((pre ++ encodeArg (.midi p1 s1 d1 d2)) ++ (encodeArgs rest ++ suf)).length := by
        simp [encodeArg]
      simp only [tagOf]
      rw [parseArgs_midi _ _ _ _ _ _ _ _ hlen hpos hb,
        show (pre ++ encodeArg (.midi p1 s1 d1 d2)).length = pre.length + 4 by
          simp [encodeArg]]
    | char c =>
      refine glue ⟨99, .vc c⟩ (by simp [Reproduces]) ?_
      have hb : ((pre ++ encodeArg (.char c)) ++ (encodeArgs rest ++ suf)).get?
          (pre.length + 3) = some c := by
        have h := get?_at (pre ++ [0, 0, 0]) c (encodeArgs rest ++ suf)
        simp only [List.length_append, List.length_cons, List.length_nil] at h
        rw [show pre.length + 3 = pre.length + (0 + 1 + 1 + 1) by omega]
        simpa [encodeArg, List.append_assoc] using h
      have hpos : pre.length + 4
          ≤ ((pre ++ encodeArg (.char c)) ++ (encodeArgs rest ++ suf)).length := by
        simp [encodeArg]
      simp only [tagOf]
      rw [parseArgs_char _ _ _ _ _ hlen hpos hb,
        show (pre ++ encodeArg (.char c)).length = pre.length + 4 by simp [encodeArg]]
    | color r1 g1 b1 a1 =>
      refine glue ⟨114, .vcolor r1 g1 b1 a1⟩ (by simp [Reproduces]) ?_
      have hb : bytes4 ((pre ++ encodeArg (.color r1 g1 b1 a1)) ++ (encodeArgs rest ++ suf))
          pre.length = some (r1, g1, b1, a1) := by
        simpa [encodeArg, List.append_assoc] using
          bytes4_at pre r1 g1 b1 a1 (encodeArgs rest ++ suf)
      have hpos : pre.length + 4
          ≤ ((pre ++ encodeArg (.color r1 g1 b1 a1)) ++ (encodeArgs rest ++ suf)).length := by
        simp [encodeArg]
      simp only [tagOf]
      rw [parseArgs_color _ _ _ _ _ _ _ _ hlen hpos hb,
        show (pre ++ encodeArg (.color r1 g1 b1 a1)).length = pre.length + 4 by
          simp [encodeArg]]


/-! ### Parsing a built message -/

theorem tagOf_ne_zero (a : BArg) : tagOf a ≠ 0 := by
  cases a <;> simp [tagOf]

theorem build_eq (m : OSCMessage) (maxSize : Nat) (hnz : m.build maxSize ≠ []) :
    m.build maxSize = m.mAddress ++ [44] ++ m.mTypeTags ++ [0]
        ++ List.replicate (align4 (m.mAddress.length + (1 + m.mTypeTags.length + 1))
            - (m.mAddress.length + (1 + m.mTypeTags.length + 1))) 0 ++ m.mArgBuffer
      ∧ m.mAddress.length + align4 (1 + m.mTypeTags.length + 1) + m.mArgBuffer.length ≤ maxSize
      ∧ m.mAddress.length ≠ 0 := by
  simp only [OSCMessage.build] at hnz ⊢
  split at hnz
  case isTrue => simp at hnz
  case isFalse h =>
    rw [if_neg h]
    push_neg at h
    exact ⟨rfl, h.1, h.2⟩

theorem scanNul_at0 (l r : List Nat) (h : ∀ b ∈ l, b ≠ 0) :
    scanNul (l ++ 0 :: r) 0 = l.length := by
  simpa using scanNul_at [] l r h

theorem readCStr_at0 (l r : List Nat) (h : ∀ b ∈ l, b ≠ 0) :
    readCStr (l ++ 0 :: r) 0 = l := by
  simpa using readCStr_at [] l r h

theorem parse_build (addr : List Nat) (bargs : List BArg) (maxSize : Nat) (m : OSCMessage)
    (ha : AddrWF addr) (hw : ∀ a ∈ bargs, ArgWF a)
    (hbm : buildMsg addr bargs = some m) (hnz : m.build maxSize ≠ []) :
    ∃ res, OSCMessageView.parse (m.build maxSize)
        = (⟨some 0, .ofs (align4 (addr.length + 1) + 1), res⟩, .ok)
      ∧ readCStr (m.build maxSize) 0 = addr
      ∧ readCStr (m.build maxSize) (align4 (addr.length + 1) + 1) = tagsOf bargs
      ∧ List.Forall₂ (Reproduces (m.build maxSize)) bargs res := by
  obtain ⟨g1, g2, g3, g4, g5, g6, g7, g8⟩ := buildMsg_some addr bargs m hw hbm
  obtain ⟨hW, hfits, hA0⟩ := build_eq m maxSize hnz
  set w := m.build maxSize with hwdef
  set A := align4 (addr.length + 1) with hAdef
  set T := bargs.length with hTdef
  have hTlen : m.mTypeTags.length = T := by rw [g2]; simp [tagsOf]
  have htol : (tagsOf bargs).length = T := by simp [tagsOf]
  have haddrnz : ∀ b ∈ addr, b ≠ 0 := fun b hb => (ha.2 b hb).1
  have htagsnz : ∀ b ∈ tagsOf bargs, b ≠ 0 := by
    intro b hb
    simp only [tagsOf, List.mem_map] at hb
    obtain ⟨a, _, rfl⟩ := hb
    exact tagOf_ne_zero a
  obtain ⟨tl, rfl⟩ : ∃ tl, addr = 47 :: tl := by
    rcases addr with _ | ⟨hd, tl⟩
    · simp [AddrWF] at ha
    · obtain ⟨h1, _⟩ := ha
      simp only [List.head?_cons, Option.some.injEq] at h1
      exact ⟨tl, by rw [h1]⟩
  have haddrlen : (47 :: tl).length = tl.length + 1 := by simp
  have hA4 : A % 4 = 0 := align4_mod _
  have hAge : (47 :: tl).length + 1 ≤ A := align4_ge _
  have hA4le : 4 ≤ A := by
    simp only [haddrlen] at hAge
    omega
  -- the padded type-tag block length
  have hpadT : align4 (m.mAddress.length + (1 + m.mTypeTags.length + 1))
      - (m.mAddress.length + (1 + m.mTypeTags.length + 1))
      = align4 (T + 2) - (T + 2) := by
    rw [g7, hTlen, show A + (1 + T + 1) = A + (T + 2) by omega, align4_add_of_mod _ _ hA4]
    omega
  have hT2 : T + 2 ≤ align4 (T + 2) := align4_ge _
  have hwshape : w = m.mAddress ++ [44] ++ tagsOf bargs ++ [0]
      ++ List.replicate (align4 (T + 2) - (T + 2)) 0 ++ encodeArgs bargs := by
    rw [hW, hpadT, g2, g3]
  have hwlen : w.length = A + align4 (T + 2) + (encodeArgs bargs).length := by
    rw [hwshape]
    simp only [List.length_append, List.length_cons, List.length_nil, List.length_replicate, g7]
    omega
  -- address region
  have hashape : w = (47 :: tl) ++ 0 :: (List.replicate (A - ((47 :: tl).length + 1)) 0
      ++ ([44] ++ tagsOf bargs ++ [0]
        ++ List.replicate (align4 (T + 2) - (T + 2)) 0 ++ encodeArgs bargs)) := by
    rw [hwshape, g1]
    simp [List.append_assoc]
  have hscan0 : scanNul w 0 = (47 :: tl).length := by
    rw [hashape]
    exact scanNul_at0 _ _ haddrnz
  have hread0 : readCStr w 0 = 47 :: tl := by
    rw [hashape]
    exact readCStr_at0 _ _ haddrnz
  have hget0 : w.getD 0 0 = 47 := by rw [hashape]; rfl
  -- comma and type tags
  have hcshape : w = m.mAddress ++ 44 :: (tagsOf bargs ++ [0]
      ++ List.replicate (align4 (T + 2) - (T + 2)) 0 ++ encodeArgs bargs) := by
    rw [hwshape]
    simp [List.append_assoc]
  have hgetA : w.getD A 0 = 44 := by
    rw [hcshape, ← g7]
    exact getD_at _ _ _
  have htshape : w = m.mAddress ++ ((44 :: tagsOf bargs)
      ++ 0 :: (List.replicate (align4 (T + 2) - (T + 2)) 0 ++ encodeArgs bargs)) := by
    rw [hwshape]
    simp [List.append_assoc]
  have hscanA : scanNul w A = A + (1 + T) := by
    have hnz2 : ∀ b ∈ 44 :: tagsOf bargs, b ≠ 0 := by
      intro b hb
      rcases List.mem_cons.mp hb with rfl | hb2
      · omega
      · exact htagsnz b hb2
    have h := scanNul_at m.mAddress (44 :: tagsOf bargs)
      (List.replicate (align4 (T + 2) - (T + 2)) 0 ++ encodeArgs bargs) hnz2
    rw [← htshape, g7] at h
    rw [h]
    simp only [List.length_cons, htol]
    omega
  have htypes_shape : w = (m.mAddress ++ [44]) ++ (tagsOf bargs
      ++ 0 :: (List.replicate (align4 (T + 2) - (T + 2)) 0 ++ encodeArgs bargs)) := by
    rw [hwshape]
    simp [List.append_assoc]
  have hA1len : (m.mAddress ++ [44]).length = A + 1 := by simp [g7]
  have htypes : (w.drop (A + 1)).takeWhile (fun b => b ≠ 0) = tagsOf bargs := by
    rw [htypes_shape, ← hA1len, List.drop_left]
    exact takeWhile_nulFree_append _ _ htagsnz
  have hreadA1 : readCStr w (A + 1) = tagsOf bargs := by
    have h := readCStr_at (m.mAddress ++ [44]) (tagsOf bargs)
      (List.replicate (align4 (T + 2) - (T + 2)) 0 ++ encodeArgs bargs) htagsnz
    rw [hA1len] at h
    rw [htypes_shape]
    exact h
  -- the argument payload
  have hpre0 : w = (m.mAddress ++ [44] ++ tagsOf bargs ++ [0]
      ++ List.replicate (align4 (T + 2) - (T + 2)) 0) ++ (encodeArgs bargs ++ []) := by
    rw [hwshape]
    simp [List.append_assoc]
  have hpre0len : (m.mAddress ++ [44] ++ tagsOf bargs ++ [0]
      ++ List.replicate (align4 (T + 2) - (T + 2)) 0).length = A + align4 (T + 2) := by
    simp only [List.length_append, List.length_cons, List.length_nil, List.length_replicate,
      g7, htol]
    omega
  have hP : align4 (A + (1 + T) + 1) = A + align4 (T + 2) := by
    rw [show A + (1 + T) + 1 = A + (T + 2) by omega, align4_add_of_mod _ _ hA4]
  obtain ⟨res, hdone, hfa⟩ := parseArgs_encode bargs
    (m.mAddress ++ [44] ++ tagsOf bargs ++ [0]
      ++ List.replicate (align4 (T + 2) - (T + 2)) 0) [] []
    hw (by rw [hpre0len]; have := align4_mod (T + 2); omega)
    (by simp only [List.length_nil, Nat.zero_add, ← hTdef]; omega)
    (by
      rw [hpre0len]
      have hg : (encodeArgs bargs).length ≤ 768 := by rw [← g3]; exact g5
      have ht : T ≤ 63 := by rw [← hTlen]; exact g4
      have hx : align4 (T + 2) < T + 2 + 4 := align4_lt _
      have hy : A < (47 :: tl).length + 1 + 4 := align4_lt _
      simp only [haddrlen] at hy
      omega)
  rw [← hpre0, hpre0len] at hdone
  rw [← hpre0] at hfa
  simp only [List.nil_append] at hdone
  -- assemble the parse run
  refine ⟨res, ?_, hread0, hreadA1, hfa⟩
  rw [OSCMessageView.parse]
  rw [if_neg (by rw [hwlen]; omega)]
  rw [if_neg (by rw [hget0]; simp)]
  simp only [hscan0, hget0, hscanA, htypes]
  rw [← hAdef]
  rw [if_neg (by rw [hwlen]; simp only [haddrlen] at hAge ⊢; omega)]
  rw [if_neg (by push_neg; exact ⟨by rw [hwlen]; omega, hgetA⟩)]
  rw [if_neg (by rw [hwlen]; omega)]
  rw [hP, hdone]

/-! ### In-bounds reads and blob containment -/

theorem get?_isSome (buf : List Nat) (i : Nat) (h : i < buf.length) :
    ∃ b, buf.get? i = some b := by
  rw [List.get?_eq_getElem?, List.getElem?_eq_getElem h]
  exact ⟨_, rfl⟩

theorem bytes4_isSome (buf : List Nat) (pos : Nat) (h : pos + 4 ≤ buf.length) :
    ∃ t, bytes4 buf pos = some t := by
  obtain ⟨b0, h0⟩ := get?_isSome buf pos (by omega)
  obtain ⟨b1, h1⟩ := get?_isSome buf (pos + 1) (by omega)
  obtain ⟨b2, h2⟩ := get?_isSome buf (pos + 2) (by omega)
  obtain ⟨b3, h3⟩ := get?_isSome buf (pos + 3) (by omega)
  simp only [List.get?_eq_getElem?] at h0 h1 h2 h3
  exact ⟨(b0, b1, b2, b3), by simp [bytes4, h0, h1, h2, h3]⟩

theorem bytes8_isSome (buf : List Nat) (pos : Nat) (h : pos + 8 ≤ buf.length) :
    ∃ t, bytes8 buf pos = some t := by
  obtain ⟨⟨b0, b1, b2, b3⟩, h1⟩ := bytes4_isSome buf pos (by omega)
  obtain ⟨⟨b4, b5, b6, b7⟩, h2⟩ := bytes4_isSome buf (pos + 4) (by omega)
  exact ⟨(b0, b1, b2, b3, b4, b5, b6, b7), by simp [bytes8, h1, h2]⟩

/-- Every branch of the switch bounds-checks before it reads, so a
single step never reads out of bounds. -/
theorem parseArgsStep_not_oob (buf : List Nat) (pos : Nat) (c : Nat) :
    parseArgsStep buf pos c ≠ .oob := by
  rw [parseArgsStep]
  by_cases h105 : c = 105
  · rw [if_pos h105]
    intro hcon
    split at hcon
    · exact StepRes.noConfusion hcon
    · rename_i hguard
      obtain ⟨⟨b0, b1, b2, b3⟩, ht⟩ := bytes4_isSome buf pos (by omega)
      rw [ht] at hcon
      exact StepRes.noConfusion hcon
  rw [if_neg h105]
  by_cases h102 : c = 102
  · rw [if_pos h102]
    intro hcon
    split at hcon
    · exact StepRes.noConfusion hcon
    · rename_i hguard
      obtain ⟨⟨b0, b1, b2, b3⟩, ht⟩ := bytes4_isSome buf pos (by omega)
      rw [ht] at hcon
      exact StepRes.noConfusion hcon
  rw [if_neg h102]
  by_cases hstr : c = 115 ∨ c = 83
  · rw [if_pos hstr]
    intro hcon
    dsimp only at hcon
    split at hcon
    · exact StepRes.noConfusion hcon
    · exact StepRes.noConfusion hcon
  rw [if_neg hstr]
  by_cases h98 : c = 98
  · rw [if_pos h98]
    intro hcon
    split at hcon
    · exact StepRes.noConfusion hcon
    · rename_i hguard
      obtain ⟨⟨b0, b1, b2, b3⟩, ht⟩ := bytes4_isSome buf pos (by omega)
      rw [ht] at hcon
      dsimp only at hcon
      split at hcon
      · exact StepRes.noConfusion hcon
      · exact StepRes.noConfusion hcon
  rw [if_neg h98]
  by_cases h104 : c = 104
  · rw [if_pos h104]
    intro hcon
    split at hcon
    · exact StepRes.noConfusion hcon
    · rename_i hguard
      obtain ⟨⟨b0, b1, b2, b3, b4, b5, b6, b7⟩, ht⟩ := bytes8_isSome buf pos (by omega)
      rw [ht] at hcon
      exact StepRes.noConfusion hcon
  rw [if_neg h104]
  by_cases h100 : c = 100
  · rw [if_pos h100]
    intro hcon
    split at hcon
    · exact StepRes.noConfusion hcon
    · rename_i hguard
      obtain ⟨⟨b0, b1, b2, b3, b4, b5, b6, b7⟩, ht⟩ := bytes8_isSome buf pos (by omega)
      rw [ht] at hcon
      exact StepRes.noConfusion hcon
  rw [if_neg h100]
  by_cases h116 : c = 116
  · rw [if_pos h116]
    intro hcon
    split at hcon
    · exact StepRes.noConfusion hcon
    · rename_i hguard
      obtain ⟨⟨b0, b1, b2, b3⟩, ht1⟩ := bytes4_isSome buf pos (by omega)
      obtain ⟨⟨b4, b5, b6, b7⟩, ht2⟩ := bytes4_isSome buf (pos + 4) (by omega)
      rw [ht1, ht2] at hcon
      exact StepRes.noConfusion hcon
  rw [if_neg h116]
  by_cases h109 : c = 109
  · rw [if_pos h109]
    intro hcon
    split at hcon
    · exact StepRes.noConfusion hcon
    · rename_i hguard
      obtain ⟨⟨b0, b1, b2, b3⟩, ht⟩ := bytes4_isSome buf pos (by omega)
      rw [ht] at hcon
      exact StepRes.noConfusion hcon
  rw [if_neg h109]
  by_cases h99 : c = 99
  · rw [if_pos h99]
    intro hcon
    split at hcon
    · exact StepRes.noConfusion hcon
    · rename_i hguard
      obtain ⟨b, ht⟩ := get?_isSome buf (pos + 3) (by omega)
      rw [ht] at hcon
      exact StepRes.noConfusion hcon
  rw [if_neg h99]
  by_cases h114 : c = 114
  · rw [if_pos h114]
    intro hcon
    split at hcon
    · exact StepRes.noConfusion hcon
    · rename_i hguard
      obtain ⟨⟨b0, b1, b2, b3⟩, ht⟩ := bytes4_isSome buf pos (by omega)
      rw [ht] at hcon
      exact StepRes.noConfusion hcon
  rw [if_neg h114]
  by_cases htf : c = 84 ∨ c = 70 ∨ c = 78 ∨ c = 73
  · rw [if_pos htf]
    exact fun hcon => StepRes.noConfusion hcon
  rw [if_neg htf]
  exact fun hcon => StepRes.noConfusion hcon

/-- A recorded argument's blob reference stays inside the buffer:
offset and offset plus (clamped) declared size are bounded by the
size. -/
def BlobOK (buf : List Nat) (a : OSCArg) : Prop :=
  ∀ ofs bs, a.val = OSCVal.vblob ofs bs → ofs ≤ buf.length ∧ ofs + bs.toNat ≤ buf.length

theorem parseArgsStep_next_blobOK (buf : List Nat) (pos : Nat) (c : Nat) (arg : OSCArg)
    (pos' : Nat) (hbig : buf.length < 9223372036854775808)
    (h : parseArgsStep buf pos c = .next arg pos') : BlobOK buf arg := by
  rw [parseArgsStep] at h
  by_cases h105 : c = 105
  · rw [if_pos h105] at h
    split at h
    · exact StepRes.noConfusion h
    · split at h
      · exact StepRes.noConfusion h
      · injection h with h1 h2
        subst h1
        intro ofs bs hval
        simp at hval
  rw [if_neg h105] at h
  by_cases h102 : c = 102
  · rw [if_pos h102] at h
    split at h
    · exact StepRes.noConfusion h
    · split at h
      · exact StepRes.noConfusion h
      · injection h with h1 h2
        subst h1
        intro ofs bs hval
        simp at hval
  rw [if_neg h102] at h
  by_cases hstr : c = 115 ∨ c = 83
  · rw [if_pos hstr] at h
    dsimp only at h
    split at h
    · exact StepRes.noConfusion h
    · injection h with h1 h2
      subst h1
      intro ofs bs hval
      simp at hval
  rw [if_neg hstr] at h
  by_cases h98 : c = 98
  · rw [if_pos h98] at h
    split at h
    · exact StepRes.noConfusion h
    · rename_i hguard
      split at h
      · exact StepRes.noConfusion h
      · rename_i b0 b1 b2 b3 heq
        dsimp only at h
        split at h
        · exact StepRes.noConfusion h
        · rename_i hadv
          injection h with h1 h2
          subst h1
          intro ofs bs hval
          injection hval with hv1 hv2
          subst hv1
          subst hv2
          obtain ⟨hlo, hhi⟩ := i32ofU32_range _ (swap_endian32_lt (word32LE b0 b1 b2 b3))
          constructor
          · omega
          · simp only [sizeTCast] at hadv
            omega
  rw [if_neg h98] at h
  by_cases h104 : c = 104
  · rw [if_pos h104] at h
    split at h
    · exact StepRes.noConfusion h
    · split at h
      · exact StepRes.noConfusion h
      · injection h with h1 h2
        subst h1
        intro ofs bs hval
        simp at hval
  rw [if_neg h104] at h
  by_cases h100 : c = 100
  · rw [if_pos h100] at h
    split at h
    · exact StepRes.noConfusion h
    · split at h
      · exact StepRes.noConfusion h
      · injection h with h1 h2
        subst h1
        intro ofs bs hval
        simp at hval
  rw [if_neg h100] at h
  by_cases h116 : c = 116
  · rw [if_pos h116] at h
    split at h
    · exact StepRes.noConfusion h
    · split at h
      · injection h with h1 h2
        subst h1
        intro ofs bs hval
        simp at hval
      · exact StepRes.noConfusion h
  rw [if_neg h116] at h
  by_cases h109 : c = 109
  · rw [if_pos h109] at h
    split at h
    · exact StepRes.noConfusion h
    · split at h
      · exact StepRes.noConfusion h
      · injection h with h1 h2
        subst h1
        intro ofs bs hval
        simp at hval
  rw [if_neg h109] at h
  by_cases h99 : c = 99
  · rw [if_pos h99] at h
    split at h
    · exact StepRes.noConfusion h
    · split at h
      · exact StepRes.noConfusion h
      · injection h with h1 h2
        subst h1
        intro ofs bs hval
        simp at hval
  rw [if_neg h99] at h
  by_cases h114 : c = 114
  · rw [if_pos h114] at h
    split at h
    · exact StepRes.noConfusion h
    · split at h
      · exact StepRes.noConfusion h
      · injection h with h1 h2
        subst h1
        intro ofs bs hval
        simp at hval
  rw [if_neg h114] at h
  by_cases htf : c = 84 ∨ c = 70 ∨ c = 78 ∨ c = 73
  · rw [if_pos htf] at h
    injection h with h1 h2
    subst h1
    intro ofs bs hval
    simp at hval
  rw [if_neg htf] at h
  injection h with h1 h2
  subst h1
  intro ofs bs hval
  simp at hval

/-- The argument slots carried by any loop outcome. -/
def ArgsRes.argsOf : ArgsRes → List OSCArg
  | .done args => args
  | .failp args => args
  | .oobp args => args

theorem parseArgs_not_oob (buf : List Nat) (types : List Nat) : ∀ (pos : Nat)
    (args res : List OSCArg), parseArgs buf pos types args ≠ ArgsRes.oobp res := by
  induction types with
  | nil =>
    intro pos args res
    rw [parseArgs]
    exact fun hx => ArgsRes.noConfusion hx
  | cons c rest ih =>
    intro pos args res
    rw [parseArgs]
    split
    · exact fun hx => ArgsRes.noConfusion hx
    · cases hs : parseArgsStep buf pos c with
      | next arg pos' => exact ih pos' (args ++ [arg]) res
      | fails => exact fun hx => ArgsRes.noConfusion hx
      | oob => exact absurd hs (parseArgsStep_not_oob buf pos c)

theorem parseArgs_blobOK (buf : List Nat) (types : List Nat)
    (hbig : buf.length < 9223372036854775808) : ∀ (pos : Nat) (args : List OSCArg),
    (∀ a ∈ args, BlobOK buf a) →
    ∀ a ∈ (parseArgs buf pos types args).argsOf, BlobOK buf a := by
  induction types with
  | nil =>
    intro pos args hargs
    rw [parseArgs]
    exact hargs
  | cons c rest ih =>
    intro pos args hargs
    rw [parseArgs]
    split
    · exact hargs
    · cases hs : parseArgsStep buf pos c with
      | next arg pos' =>
        refine ih pos' (args ++ [arg]) ?_
        intro a ha
        rcases List.mem_append.mp ha with ha1 | ha2
        · exact hargs a ha1
        · rw [List.mem_singleton.mp ha2]
          exact parseArgsStep_next_blobOK buf pos c arg pos' hbig hs
      | fails => exact hargs
      | oob => exact hargs

theorem parse_not_oob (buf : List Nat) : (OSCMessageView.parse buf).2 ≠ PStatus.oob := by
  rw [OSCMessageView.parse]
  repeat' first | split | (dsimp only; split)
  all_goals try exact fun h => PStatus.noConfusion h
  rename_i args heq
  exact absurd heq (parseArgs_not_oob buf _ _ _ _)

theorem parse_blobOK (buf : List Nat) (hbig : buf.length < 9223372036854775808) :
    ∀ a ∈ (OSCMessageView.parse buf).1.mArgs, BlobOK buf a := by
  rw [OSCMessageView.parse]
  repeat' first | split | (dsimp only; split)
  all_goals try (intro a ha; exact absurd ha (List.not_mem_nil a))
  all_goals
    rename_i args heq
    intro a ha
    have h2 := parseArgs_blobOK buf
      (List.takeWhile (fun b => decide (b ≠ 0)) (List.drop (align4 (scanNul buf 0 + 1) + 1) buf))
      hbig (align4 (scanNul buf (align4 (scanNul buf 0 + 1)) + 1)) []
      (by intro x hx; exact absurd hx (List.not_mem_nil x))
    rw [heq] at h2
    exact h2 a ha

/-! ### Bundle dispatch decomposition -/

/-- How the element loop dispatches one element. -/
def elemDispatch (e : List Nat) : List OSCMessageView :=
  if 8 ≤ e.length ∧ e.take 7 = magic7 then parseBundle e
  else
    match OSCMessageView.parse e with
    | (v, .ok) => [v]
    | _ => []

theorem parseBundleAux_elems (es : List (List Nat)) : ∀ (pre : List Nat),
    (∀ e ∈ es, 0 < e.length ∧ e.length < 2147483648) →
    parseBundleAux (pre ++ encElems es) pre.length = es.flatMap elemDispatch := by
  induction es with
  | nil =>
    intro pre _
    rw [parseBundleAux]
    rw [dif_neg (by simp [encElems])]
    simp
  | cons e es ih =>
    intro pre hes
    obtain ⟨he1, he2⟩ := hes e (List.mem_cons_self e es)
    have hx : pre ++ encElems (e :: es)
        = pre ++ (storeLE32 (swap_endian32 (u32ofInt (e.length : Int)))
            ++ (e ++ encElems es)) := by
      simp [encElems, List.append_assoc]
    have hb : bytes4 (pre ++ encElems (e :: es)) pre.length
        = some (swap_endian32 (u32ofInt (e.length : Int)) % 256,
            swap_endian32 (u32ofInt (e.length : Int)) / 256 % 256,
            swap_endian32 (u32ofInt (e.length : Int)) / 65536 % 256,
            swap_endian32 (u32ofInt (e.length : Int)) / 16777216 % 256) := by
      rw [hx]
      exact bytes4_encode pre _ _
    have hval : i32ofU32 (swap_endian32 (word32LE
        (swap_endian32 (u32ofInt (e.length : Int)) % 256)
        (swap_endian32 (u32ofInt (e.length : Int)) / 256 % 256)
        (swap_endian32 (u32ofInt (e.length : Int)) / 65536 % 256)
        (swap_endian32 (u32ofInt (e.length : Int)) / 16777216 % 256))) = (e.length : Int) := by
      rw [decode32_store _ (u32ofInt_lt _)]
      exact i32_roundtrip _ (by omega) (by exact_mod_cast he2)
    have hcast : sizeTCast (e.length : Int) = e.length := sizeTCast_ofNat _ (by omega)
    have hlen : (pre ++ encElems (e :: es)).length
        = pre.length + 4 + e.length + (encElems es).length := by
      rw [hx]
      simp [storeLE32]
      omega
    rw [parseBundleAux]
    rw [dif_pos (by rw [hlen]; omega)]
    rw [hb]
    dsimp only
    rw [hval, hcast]
    rw [dif_neg (by
      push_neg
      refine ⟨by exact_mod_cast he1, ?_⟩
      rw [hlen]
      omega)]
    have hslice : sliceOf (pre ++ encElems (e :: es)) (pre.length + 4) e.length = e := by
      have h2 : pre ++ encElems (e :: es)
          = (pre ++ storeLE32 (swap_endian32 (u32ofInt (e.length : Int)))) ++ (e ++ encElems es) := by
        rw [hx]
        simp [List.append_assoc]
      rw [h2, show pre.length + 4
          = (pre ++ storeLE32 (swap_endian32 (u32ofInt (e.length : Int)))).length by
        simp [storeLE32]]
      exact sliceOf_at _ e _
    rw [hslice]
    have hrest : pre.length + 4 + e.length
        = (pre ++ (storeLE32 (swap_endian32 (u32ofInt (e.length : Int))) ++ e)).length := by
      simp [storeLE32]
      omega
    have hbufr : pre ++ encElems (e :: es)
        = (pre ++ (storeLE32 (swap_endian32 (u32ofInt (e.length : Int))) ++ e)) ++ encElems es := by
      rw [hx]
      simp [List.append_assoc]
    rw [show parseBundleAux (pre ++ encElems (e :: es)) (pre.length + 4 + e.length)
        = es.flatMap elemDispatch from by
      rw [hbufr, hrest]
      exact ih _ (fun x hx2 => hes x (List.mem_cons_of_mem e hx2))]
    simp only [List.flatMap_cons, elemDispatch, parseBundle]

/-- A successful `addMessage` sequence appends each built message with
its big-endian size prefix, and every build succeeded. -/
theorem addMessages_some (msgs : List OSCMessage) : ∀ (b b' : OSCBundle),
    addMessages b msgs = some b' →
    b'.mBuffer = b.mBuffer ++ encElems (msgs.map (fun m => m.build 1024))
      ∧ ∀ m ∈ msgs, m.build 1024 ≠ [] := by
  induction msgs with
  | nil =>
    intro b b' h
    simp only [addMessages, Option.some.injEq] at h
    subst h
    exact ⟨by simp [encElems], by simp⟩
  | cons m rest ih =>
    intro b b' h
    simp only [addMessages] at h
    split at h
    case isFalse => simp at h
    case isTrue hok =>
      simp only [OSCBundle.addMessage] at hok h
      split at hok
      case isTrue => simp at hok
      case isFalse hnz =>
        split at hok
        case isTrue => simp at hok
        case isFalse hcap =>
          simp only [if_neg hnz, if_neg hcap] at h
          obtain ⟨h1, h2⟩ := ih _ _ h
          refine ⟨?_, ?_⟩
          · rw [h1]
            simp only [List.map_cons, encElems, List.flatMap_cons, List.append_assoc]
          · intro x hx
            rcases List.mem_cons.mp hx with rfl | hx2
            · intro hcon
              rw [hcon] at hnz
              simp at hnz
            · exact h2 x hx2

/-- A built message is no longer than the output capacity (for builder
states whose stored address length is 4-byte aligned, as `setAddress`
guarantees). -/
theorem build_length_le (m : OSCMessage) (maxSize : Nat)
    (h4 : m.mAddress.length % 4 = 0) (hnz : m.build maxSize ≠ []) :
    (m.build maxSize).length ≤ maxSize := by
  obtain ⟨hW, hfits, _⟩ := build_eq m maxSize hnz
  rw [hW]
  simp only [List.length_append, List.length_cons, List.length_nil, List.length_replicate]
  have h1 : align4 (m.mAddress.length + (1 + m.mTypeTags.length + 1))
      = m.mAddress.length + align4 (1 + m.mTypeTags.length + 1) := align4_add_of_mod _ _ h4
  have h2 := align4_ge (1 + m.mTypeTags.length + 1)
  omega

theorem buildMsg_build_cons (addr : List Nat) (bargs : List BArg) (m : OSCMessage)
    (maxSize : Nat) (ha : AddrWF addr) (hw : ∀ a ∈ bargs, ArgWF a)
    (hbm : buildMsg addr bargs = some m) (hnz : m.build maxSize ≠ []) :
    ∃ r, m.build maxSize = 47 :: r := by
  obtain ⟨g1, _, _, _, _, _, _, _⟩ := buildMsg_some addr bargs m hw hbm
  obtain ⟨hW, _, _⟩ := build_eq m maxSize hnz
  obtain ⟨tl, rfl⟩ : ∃ tl, addr = 47 :: tl := by
    rcases addr with _ | ⟨hd, tl⟩
    · simp [AddrWF] at ha
    · obtain ⟨h1, _⟩ := ha
      simp only [List.head?_cons, Option.some.injEq] at h1
      exact ⟨tl, by rw [h1]⟩
  rw [hW, g1]
  simp only [List.cons_append, List.append_assoc]
  exact ⟨_, rfl⟩

theorem take7_ne_magic7 (e : List Nat) (h : ∃ r, e = 47 :: r) : e.take 7 ≠ magic7 := by
  obtain ⟨r, rfl⟩ := h
  intro hcon
  simp [magic7] at hcon

theorem flatMap_singleton_eq (l : List OSCMessage) (g : OSCMessage → List Nat)
    (d : List Nat → List OSCMessageView) (v : OSCMessage → OSCMessageView)
    (h : ∀ m ∈ l, d (g m) = [v m]) : (l.map g).flatMap d = l.map v := by
  induction l with
  | nil => simp
  | cons m rest ih =>
    simp only [List.map_cons, List.flatMap_cons, h m (List.mem_cons_self m rest)]
    rw [ih (fun x hx => h x (List.mem_cons_of_mem m hx))]
    simp

/-- A bundle assembled from builder-made messages with `/`-addresses
dispatches exactly one callback per message, in order, carrying that
message's parsed view. -/
theorem bundle_roundtrip (msgs : List OSCMessage) (b b' : OSCBundle)
    (hreach : ∀ m ∈ msgs, ∃ a args, AddrWF a ∧ (∀ x ∈ args, ArgWF x)
      ∧ buildMsg a args = some m)
    (hb16 : b.mBuffer.length = 16)
    (hadd : addMessages b msgs = some b') :
    parseBundle b'.mBuffer = msgs.map (fun m => (OSCMessageView.parse (m.build 1024)).1)
      ∧ ∀ m ∈ msgs, (OSCMessageView.parse (m.build 1024)).2 = PStatus.ok := by
  obtain ⟨hbuf, hnz⟩ := addMessages_some msgs b b' hadd
  have hlens : ∀ e ∈ msgs.map (fun m => m.build 1024), 0 < e.length ∧ e.length < 2147483648 := by
    intro e he
    simp only [List.mem_map] at he
    obtain ⟨m, hm, rfl⟩ := he
    obtain ⟨a, args, ha, hw, hbm⟩ := hreach m hm
    have h1 : m.build 1024 ≠ [] := hnz m hm
    have h4 : m.mAddress.length % 4 = 0 := by
      obtain ⟨_, _, _, _, _, _, g7, _⟩ := buildMsg_some a args m hw hbm
      rw [g7]
      exact align4_mod _
    have h5 := build_length_le m 1024 h4 h1
    exact ⟨List.length_pos.mpr h1, by omega⟩
  have hdec := parseBundleAux_elems (msgs.map (fun m => m.build 1024)) b.mBuffer hlens
  have helem : ∀ m ∈ msgs,
      elemDispatch (m.build 1024) = [(OSCMessageView.parse (m.build 1024)).1]
        ∧ (OSCMessageView.parse (m.build 1024)).2 = PStatus.ok := by
    intro m hm
    obtain ⟨a, args, ha, hw, hbm⟩ := hreach m hm
    have h1 := hnz m hm
    obtain ⟨res, hp, _, _⟩ := parse_build a args 1024 m ha hw hbm h1
    have hne := take7_ne_magic7 _ (buildMsg_build_cons a args m 1024 ha hw hbm h1)
    refine ⟨?_, by rw [hp]⟩
    rw [elemDispatch, if_neg (fun hx => hne hx.2), hp]
  constructor
  · rw [parseBundle, hbuf]
    rw [show (16 : Nat) = b.mBuffer.length from hb16.symm, hdec]
    exact flatMap_singleton_eq msgs _ _ _ (fun m hm => (helem m hm).1)
  · exact fun m hm => (helem m hm).2

/-! ### Pattern matcher, setAddress, and loop-count facts -/

theorem starFree_length (p : List Nat) : ∀ s : List Nat, (∀ c ∈ p, c ≠ 42) →
    matchPattern p s = true → p.length = s.length := by
  induction p with
  | nil =>
    intro s _ hm
    cases s with
    | nil => rfl
    | cons c r =>
      rw [matchPattern] at hm
      · simp at hm
      · exact fun _ _ _ _ h _ => List.noConfusion h
  | cons pc pr ih =>
    intro s hp hm
    cases s with
    | nil =>
      rw [matchPattern] at hm
      · simp only [Bool.and_eq_true, decide_eq_true_eq] at hm
        rw [List.dropWhile_cons] at hm
        rw [if_neg (by simpa using hp pc (List.mem_cons_self pc pr))] at hm
        simp at hm
      · exact fun _ _ _ _ _ h => List.noConfusion h
    | cons sc sr =>
      rw [matchPattern] at hm
      rw [if_neg (hp pc (List.mem_cons_self pc pr))] at hm
      split at hm
      · simp only [List.length_cons]
        rw [ih sr (fun c hc => hp c (List.mem_cons_of_mem pc hc)) hm]
      · simp at hm

theorem matchPattern_nil_iff (s : List Nat) : matchPattern [] s = true ↔ s = [] := by
  cases s with
  | nil => simp [matchPattern]
  | cons c r =>
    rw [matchPattern]
    · simp
    · exact fun _ _ _ _ h _ => List.noConfusion h

theorem setAddress_spec (m : OSCMessage) (a : List Nat) :
    ((m.setAddress a).1 = false ↔ 256 ≤ a.length)
      ∧ (a.length < 256 →
          (m.setAddress a).2.mAddress = a ++ [0]
              ++ List.replicate (align4 (a.length + 1) - (a.length + 1)) 0
            ∧ (m.setAddress a).2.mAddress.length % 4 = 0
            ∧ (m.setAddress a).1 = true) := by
  rw [OSCMessage.setAddress]
  by_cases h : 256 ≤ a.length
  · rw [if_pos h]
    exact ⟨by simpa using h, fun h2 => absurd h (by omega)⟩
  · rw [if_neg h]
    refine ⟨by simpa using h, fun _ => ⟨?_, ?_, rfl⟩⟩
    · simp [padTo4, List.append_assoc]
    · simp only [padTo4, List.length_append, List.length_cons, List.length_nil,
        List.length_replicate, align4]
      omega

theorem parseArgs_take64 (types : List Nat) : ∀ (buf : List Nat) (pos : Nat)
    (acc : List OSCArg),
    parseArgs buf pos types acc = parseArgs buf pos (types.take (64 - acc.length)) acc := by
  induction types with
  | nil => intro buf pos acc; rw [List.take_nil]
  | cons c rest ih =>
    intro buf pos acc
    by_cases hlen : 64 ≤ acc.length
    · rw [show 64 - acc.length = 0 by omega, List.take_zero]
      rw [show parseArgs buf pos [] acc = ArgsRes.done acc from by rw [parseArgs]]
      rw [parseArgs, if_pos hlen]
    · rw [show 64 - acc.length = (64 - (acc.length + 1)) + 1 by omega, List.take_succ_cons]
      rw [parseArgs, if_neg hlen]
      rw [parseArgs, if_neg hlen]
      cases hs : parseArgsStep buf pos c with
      | next arg pos' =>
        dsimp only
        rw [ih buf pos' (acc ++ [arg])]
        simp only [List.length_append, List.length_cons, List.length_nil, Nat.zero_add]
      | fails => rfl
      | oob => rfl

theorem parseArgs_done_length (types : List Nat) : ∀ (buf : List Nat) (pos : Nat)
    (acc args : List OSCArg), acc.length ≤ 64 →
    parseArgs buf pos types acc = ArgsRes.done args →
    args.length = min (acc.length + types.length) 64 := by
  induction types with
  | nil =>
    intro buf pos acc args hle h
    rw [parseArgs] at h
    injection h with h1
    subst h1
    simp
    omega
  | cons c rest ih =>
    intro buf pos acc args hle h
    rw [parseArgs] at h
    split at h
    · injection h with h1
      subst h1
      simp only [List.length_cons]
      omega
    · rename_i hlen
      cases hs : parseArgsStep buf pos c with
      | next arg pos' =>
        rw [hs] at h
        have h2 := ih buf pos' (acc ++ [arg]) args (by simp; omega) h
        simp only [List.length_append, List.length_cons, List.length_nil] at h2 ⊢
        omega
      | fails => rw [hs] at h; exact absurd h (fun hx => ArgsRes.noConfusion hx)
      | oob => rw [hs] at h; exact absurd h (fun hx => ArgsRes.noConfusion hx)

/-! ### The claims -/

/-! ### Concrete inputs used by the counterexamples and witnesses -/

/-- A minimal wire message `"/a"` with an empty type-tag string. -/
def c3inner : List Nat := [47, 97, 0, 0, 44, 0, 0, 0]

/-- A bundle element whose first seven bytes are `"#bundle"` but whose
eighth byte is `90` (not the NUL of the full magic); its body carries a
16-byte header and one wire message. -/
def c3elem : List Nat := magic7 ++ [90] ++ List.replicate 8 0 ++ encElems [c3inner]

/-- A 16-byte header followed by the single element `c3elem`. -/
def c3outer : List Nat := List.replicate 16 0 ++ encElems [c3elem]

/-- The result of `buildMsg [47, 97] [.int 7]`. -/
def m5 : OSCMessage := ⟨[47, 97, 0, 0], [105], [0, 0, 0, 7]⟩

/-- The bundle buffer produced by `addMessages OSCBundle.cleared [m5]`. -/
def b5 : OSCBundle :=
  ⟨magic8 ++ List.replicate 8 0 ++ [0, 0, 0, 12] ++ [47, 97, 0, 0, 44, 105, 0, 0, 0, 0, 0, 7]⟩

/-- A wire message declaring 65 `i` tags with no payload bytes. -/
def c10over : List Nat := [47, 97, 0, 0] ++ (44 :: List.replicate 65 105) ++ [0, 0]

/-- A wire message declaring 65 `T` tags (no payload needed). -/
def c10ok : List Nat := [47, 97, 0, 0] ++ (44 :: List.replicate 65 84) ++ [0, 0]

/-- **C1** (confirmed): for every message assembled by the builder from a
well-formed address (starts with `/`, NUL-free bytes) and well-formed
arguments, serializing with `build` and parsing the produced bytes with
`OSCMessageView.parse` succeeds and reproduces the original address
string, the original type-tag sequence, and every argument value exactly
(numerics bit-exact, strings and blobs byte-exact). -/
theorem claim_C1 (addr : List Nat) (bargs : List BArg) (maxSize : Nat) (m : OSCMessage)
    (ha : AddrWF addr) (hw : ∀ a ∈ bargs, ArgWF a)
    (hbm : buildMsg addr bargs = some m) (hnz : m.build maxSize ≠ []) :
    ∃ res, OSCMessageView.parse (m.build maxSize)
        = (⟨some 0, .ofs (align4 (addr.length + 1) + 1), res⟩, .ok)
      ∧ readCStr (m.build maxSize) 0 = addr
      ∧ readCStr (m.build maxSize) (align4 (addr.length + 1) + 1) = tagsOf bargs
      ∧ List.Forall₂ (Reproduces (m.build maxSize)) bargs res :=
  parse_build addr bargs maxSize m ha hw hbm hnz

theorem claim_C1_witness :
    ∃ res, OSCMessageView.parse
        ((⟨[47, 97, 0, 0], [105, 115], [0, 0, 0, 5, 104, 105, 0, 0]⟩ : OSCMessage).build 1024)
        = (⟨some 0, .ofs (align4 (([47, 97] : List Nat).length + 1) + 1), res⟩, .ok)
      ∧ readCStr ((⟨[47, 97, 0, 0], [105, 115],
            [0, 0, 0, 5, 104, 105, 0, 0]⟩ : OSCMessage).build 1024) 0 = [47, 97]
      ∧ readCStr ((⟨[47, 97, 0, 0], [105, 115],
            [0, 0, 0, 5, 104, 105, 0, 0]⟩ : OSCMessage).build 1024)
          (align4 (([47, 97] : List Nat).length + 1) + 1)
          = tagsOf [BArg.int 5, BArg.str [104, 105]]
      ∧ List.Forall₂
          (Reproduces ((⟨[47, 97, 0, 0], [105, 115],
              [0, 0, 0, 5, 104, 105, 0, 0]⟩ : OSCMessage).build 1024))
          [BArg.int 5, BArg.str [104, 105]] res :=
  claim_C1 [47, 97] [BArg.int 5, BArg.str [104, 105]] 1024
    ⟨[47, 97, 0, 0], [105, 115], [0, 0, 0, 5, 104, 105, 0, 0]⟩
    (by decide) (by decide) (by decide) (by decide)

/-- **C2** (confirmed): `OSCMessageView.parse` never reaches the
out-of-bounds outcome (every instrumented read is in range), and for any
buffer whose size fits in a signed 64-bit value, every blob argument the
parse returns references a byte range lying entirely inside the buffer,
for every possible declared blob length. -/
theorem claim_C2 (buf : List Nat) :
    (OSCMessageView.parse buf).2 ≠ PStatus.oob
      ∧ (buf.length < 9223372036854775808 →
          ∀ a ∈ (OSCMessageView.parse buf).1.mArgs, BlobOK buf a) :=
  ⟨parse_not_oob buf, fun hbig => parse_blobOK buf hbig⟩

theorem claim_C2_witness :
    (OSCMessageView.parse [47, 97, 0, 0, 44, 98, 0, 0, 0, 0, 0, 2, 7, 8, 0, 0]).2 ≠ PStatus.oob
      ∧ ∀ a ∈ (OSCMessageView.parse [47, 97, 0, 0, 44, 98, 0, 0, 0, 0, 0, 2, 7, 8, 0, 0]).1.mArgs,
          BlobOK [47, 97, 0, 0, 44, 98, 0, 0, 0, 0, 0, 2, 7, 8, 0, 0] a :=
  ⟨(claim_C2 [47, 97, 0, 0, 44, 98, 0, 0, 0, 0, 0, 2, 7, 8, 0, 0]).1,
   (claim_C2 [47, 97, 0, 0, 44, 98, 0, 0, 0, 0, 0, 2, 7, 8, 0, 0]).2 (by decide)⟩

/-- **C3** (corrected): bundle dispatch recurses into an element exactly
when its declared size is at least 8 and its first SEVEN bytes equal
`"#bundle"` — the terminating NUL of the 8-byte magic is never compared
(`std::memcmp(..., "#bundle", 7)`); every other element is parsed as a
message and the callback fires only when that parse succeeds.
`elemDispatch` is this dispatch rule. -/
theorem claim_C3_amended (header : List Nat) (es : List (List Nat))
    (hh : header.length = 16)
    (hes : ∀ e ∈ es, 0 < e.length ∧ e.length < 2147483648) :
    parseBundle (header ++ encElems es) = es.flatMap elemDispatch := by
  rw [parseBundle, show (16 : Nat) = header.length from hh.symm,
    parseBundleAux_elems es header hes]

theorem claim_C3_amended_witness :
    parseBundle (List.replicate 16 0 ++ encElems [[47, 97, 0, 0, 44, 0, 0, 0]])
      = [[47, 97, 0, 0, 44, 0, 0, 0]].flatMap elemDispatch :=
  claim_C3_amended (List.replicate 16 0) [[47, 97, 0, 0, 44, 0, 0, 0]] (by decide) (by decide)

/-- **C3** counterexample: the first 8 bytes of `c3elem` are NOT the full
bundle magic `"#bundle\0"` (its eighth byte is 90) and parsing it as a
message fails, yet the dispatcher recurses into it as a nested bundle
and delivers the view of the message nested inside it. -/
theorem claim_C3_counterexample :
    c3elem.take 8 ≠ magic8
      ∧ (OSCMessageView.parse c3elem).2 = PStatus.fail
      ∧ parseBundle c3outer = [⟨some 0, CStrPtr.ofs 5, []⟩] := by
  refine ⟨by decide, by decide, ?_⟩
  have h1 : parseBundleAux (List.replicate 16 0 ++ encElems [c3elem]) 16
      = [c3elem].flatMap elemDispatch := by
    simpa using parseBundleAux_elems [c3elem] (List.replicate 16 0) (by decide)
  have h2 : parseBundleAux ((magic7 ++ [90] ++ List.replicate 8 0) ++ encElems [c3inner]) 16
      = [c3inner].flatMap elemDispatch := by
    simpa using parseBundleAux_elems [c3inner] (magic7 ++ [90] ++ List.replicate 8 0) (by decide)
  show parseBundle (List.replicate 16 0 ++ encElems [c3elem]) = _
  rw [parseBundle, h1, List.flatMap_cons, List.flatMap_nil, List.append_nil]
  simp only [elemDispatch]
  rw [if_pos (by decide)]
  show parseBundleAux ((magic7 ++ [90] ++ List.replicate 8 0) ++ encElems [c3inner]) 16 = _
  rw [h2, List.flatMap_cons, List.flatMap_nil, List.append_nil]
  simp only [elemDispatch]
  rw [if_neg (by decide),
    show OSCMessageView.parse c3inner = (⟨some 0, CStrPtr.ofs 5, []⟩, PStatus.ok) from by decide]

/-- **C4** (corrected): only the initial checks (size at least 4, first
byte `/`) fail with the view fully cleared; a parse that fails after the
address scan leaves `mAddress` set, so the original claim holds for the
initial checks but not for mid-parse failures. -/
theorem claim_C4_amended (buf : List Nat)
    (h : buf.length < 4 ∨ buf.getD 0 0 ≠ 47) :
    OSCMessageView.parse buf = (⟨none, CStrPtr.null, []⟩, PStatus.fail) := by
  rw [OSCMessageView.parse]
  rcases h with h | h
  · rw [if_pos h]
    rfl
  · by_cases h4 : buf.length < 4
    · rw [if_pos h4]
      rfl
    · rw [if_neg h4, if_pos h]
      rfl

theorem claim_C4_witness :
    OSCMessageView.parse [120, 0, 0, 0] = (⟨none, CStrPtr.null, []⟩, PStatus.fail) :=
  claim_C4_amended [120, 0, 0, 0] (Or.inr (by decide))

/-- **C4** counterexample: the buffer `"/abc"` (no NUL terminator) fails
`parse` midway, yet the returned view has its address field set — the
view is not left cleared on every failure. -/
theorem claim_C4_counterexample :
    (OSCMessageView.parse [47, 97, 98, 99]).2 = PStatus.fail
      ∧ (OSCMessageView.parse [47, 97, 98, 99]).1.mAddress = some 0 := by
  exact ⟨by decide, by decide⟩

/-- **C5** (corrected): a bundle built from N successfully-built messages
dispatches exactly N callbacks in order, PROVIDED each message was built
with a well-formed address (starting with `/`): the builder itself never
checks the leading slash, and a message whose address does not start
with `/` builds fine but fails to parse, producing no callback. -/
theorem claim_C5_amended (msgs : List OSCMessage) (b b' : OSCBundle)
    (hreach : ∀ m ∈ msgs, ∃ a args, AddrWF a ∧ (∀ x ∈ args, ArgWF x)
      ∧ buildMsg a args = some m)
    (hb16 : b.mBuffer.length = 16)
    (hadd : addMessages b msgs = some b') :
    (parseBundle b'.mBuffer).length = msgs.length
      ∧ parseBundle b'.mBuffer = msgs.map (fun m => (OSCMessageView.parse (m.build 1024)).1)
      ∧ ∀ m ∈ msgs, (OSCMessageView.parse (m.build 1024)).2 = PStatus.ok := by
  obtain ⟨h1, h2⟩ := bundle_roundtrip msgs b b' hreach hb16 hadd
  exact ⟨by rw [h1]; simp, h1, h2⟩

theorem claim_C5_witness :
    (parseBundle b5.mBuffer).length = [m5].length
      ∧ parseBundle b5.mBuffer = [m5].map (fun m => (OSCMessageView.parse (m.build 1024)).1)
      ∧ ∀ m ∈ [m5], (OSCMessageView.parse (m.build 1024)).2 = PStatus.ok :=
  claim_C5_amended [m5] OSCBundle.cleared b5
    (by
      intro m hm
      rw [List.mem_singleton] at hm
      subst hm
      exact ⟨[47, 97], [BArg.int 7], by decide, by decide, by decide⟩)
    (by decide) (by decide)

/-- **C5** counterexample: `buildMsg` accepts the address `"x"` (no
leading `/`) and `addMessage` embeds the resulting message, but bundle
dispatch parses it back into zero callback invocations, not one. -/
theorem claim_C5_counterexample :
    buildMsg [120] [] = some ⟨[120, 0, 0, 0], [], []⟩
      ∧ addMessages OSCBundle.cleared [⟨[120, 0, 0, 0], [], []⟩]
          = some ⟨magic8 ++ List.replicate 8 0 ++ [0, 0, 0, 8] ++ [120, 0, 0, 0, 44, 0, 0, 0]⟩
      ∧ parseBundle (magic8 ++ List.replicate 8 0 ++ [0, 0, 0, 8] ++ [120, 0, 0, 0, 44, 0, 0, 0])
          = [] := by
  refine ⟨by decide, by decide, ?_⟩
  have h1 : parseBundleAux ((magic8 ++ List.replicate 8 0)
        ++ encElems [[120, 0, 0, 0, 44, 0, 0, 0]]) 16
      = [[120, 0, 0, 0, 44, 0, 0, 0]].flatMap elemDispatch := by
    simpa using parseBundleAux_elems [[120, 0, 0, 0, 44, 0, 0, 0]]
      (magic8 ++ List.replicate 8 0) (by decide)
  rw [show magic8 ++ List.replicate 8 0 ++ [0, 0, 0, 8] ++ [120, 0, 0, 0, 44, 0, 0, 0]
      = (magic8 ++ List.replicate 8 0) ++ encElems [[120, 0, 0, 0, 44, 0, 0, 0]] from by decide]
  rw [parseBundle, h1, List.flatMap_cons, List.flatMap_nil, List.append_nil]
  simp only [elemDispatch]
  rw [if_neg (by decide),
    show OSCMessageView.parse [120, 0, 0, 0, 44, 0, 0, 0]
      = (⟨none, CStrPtr.null, []⟩, PStatus.fail) from by decide]

/-- **C6** (confirmed): for each of the fourteen argument-append
operations, from any builder state with a well-formed argument buffer
(at most 768 bytes used): if the type-tag count is at capacity (63) or
appending the operation's payload would exceed the 768-byte argument
buffer, the operation returns `false` and leaves the builder state
(address, type tags, argument buffer) exactly unchanged.  The payload
sizes are 4 (int/float/midi/char/color), the padded string length,
4 plus the padded blob length (in 64-bit arithmetic), 8
(int64/double/timetag) and 0 (tag-only ops). -/
theorem claim_C6 (m : OSCMessage) (hbuf : m.mArgBuffer.length ≤ 768) :
    (∀ v : Int, 63 ≤ m.mTypeTags.length ∨ 768 < m.mArgBuffer.length + 4 →
        m.addInt v = (false, m))
  ∧ (∀ bits : Nat, 63 ≤ m.mTypeTags.length ∨ 768 < m.mArgBuffer.length + 4 →
        m.addFloat bits = (false, m))
  ∧ (∀ s : List Nat,
        63 ≤ m.mTypeTags.length ∨ 768 < m.mArgBuffer.length + align4 (s.length + 1) →
        m.addString s = (false, m))
  ∧ (∀ (data : List Nat) (size : Int),
        63 ≤ m.mTypeTags.length
          ∨ 768 < m.mArgBuffer.length
              + (4 + (sizeTCast size + 3) % 18446744073709551616 / 4 * 4)
                  % 18446744073709551616 →
        m.addBlob data size = (false, m))
  ∧ (∀ v : Int, 63 ≤ m.mTypeTags.length ∨ 768 < m.mArgBuffer.length + 8 →
        m.addInt64 v = (false, m))
  ∧ (∀ bits : Nat, 63 ≤ m.mTypeTags.length ∨ 768 < m.mArgBuffer.length + 8 →
        m.addDouble bits = (false, m))
  ∧ (∀ sec frac : Nat, 63 ≤ m.mTypeTags.length ∨ 768 < m.mArgBuffer.length + 8 →
        m.addTimetag sec frac = (false, m))
  ∧ (63 ≤ m.mTypeTags.length ∨ 768 < m.mArgBuffer.length + 0 → m.addTrue = (false, m))
  ∧ (63 ≤ m.mTypeTags.length ∨ 768 < m.mArgBuffer.length + 0 → m.addFalse = (false, m))
  ∧ (63 ≤ m.mTypeTags.length ∨ 768 < m.mArgBuffer.length + 0 → m.addNil = (false, m))
  ∧ (63 ≤ m.mTypeTags.length ∨ 768 < m.mArgBuffer.length + 0 → m.addInfinitum = (false, m))
  ∧ (∀ p st d1 d2 : Nat, 63 ≤ m.mTypeTags.length ∨ 768 < m.mArgBuffer.length + 4 →
        m.addMidi p st d1 d2 = (false, m))
  ∧ (∀ c : Nat, 63 ≤ m.mTypeTags.length ∨ 768 < m.mArgBuffer.length + 4 →
        m.addChar c = (false, m))
  ∧ (∀ r g b a : Nat, 63 ≤ m.mTypeTags.length ∨ 768 < m.mArgBuffer.length + 4 →
        m.addColor r g b a = (false, m)) := by
  refine ⟨?_, ?_, ?_, ?_, ?_, ?_, ?_, ?_, ?_, ?_, ?_, ?_, ?_, ?_⟩
  · intro v h
    have hcan : ¬(m.canAddArg 4 = true) := by
      simp only [OSCMessage.canAddArg, Bool.and_eq_true, decide_eq_true_eq]
      omega
    rw [OSCMessage.addInt, if_neg hcan]
  · intro bits h
    have hcan : ¬(m.canAddArg 4 = true) := by
      simp only [OSCMessage.canAddArg, Bool.and_eq_true, decide_eq_true_eq]
      omega
    rw [OSCMessage.addFloat, if_neg hcan]
  · intro s h
    have hcan : ¬(m.canAddArg (align4 (s.length + 1)) = true) := by
      simp only [OSCMessage.canAddArg, Bool.and_eq_true, decide_eq_true_eq]
      omega
    rw [OSCMessage.addString]
    rw [if_neg hcan]
  · intro data size h
    have hcan : ¬(m.canAddArg ((4 + (sizeTCast size + 3) % 18446744073709551616 / 4 * 4)
        % 18446744073709551616) = true) := by
      simp only [OSCMessage.canAddArg, Bool.and_eq_true, decide_eq_true_eq]
      omega
    rw [OSCMessage.addBlob]
    rw [if_neg hcan]
  · intro v h
    have hcan : ¬(m.canAddArg 8 = true) := by
      simp only [OSCMessage.canAddArg, Bool.and_eq_true, decide_eq_true_eq]
      omega
    rw [OSCMessage.addInt64, if_neg hcan]
  · intro bits h
    have hcan : ¬(m.canAddArg 8 = true) := by
      simp only [OSCMessage.canAddArg, Bool.and_eq_true, decide_eq_true_eq]
      omega
    rw [OSCMessage.addDouble, if_neg hcan]
  · intro sec frac h
    have hcan : ¬(m.canAddArg 8 = true) := by
      simp only [OSCMessage.canAddArg, Bool.and_eq_true, decide_eq_true_eq]
      omega
    rw [OSCMessage.addTimetag, if_neg hcan]
  · intro h
    rw [OSCMessage.addTrue, if_pos (show 63 ≤ m.mTypeTags.length by omega)]
  · intro h
    rw [OSCMessage.addFalse, if_pos (show 63 ≤ m.mTypeTags.length by omega)]
  · intro h
    rw [OSCMessage.addNil, if_pos (show 63 ≤ m.mTypeTags.length by omega)]
  · intro h
    rw [OSCMessage.addInfinitum, if_pos (show 63 ≤ m.mTypeTags.length by omega)]
  · intro p st d1 d2 h
    have hcan : ¬(m.canAddArg 4 = true) := by
      simp only [OSCMessage.canAddArg, Bool.and_eq_true, decide_eq_true_eq]
      omega
    rw [OSCMessage.addMidi, if_neg hcan]
  · intro c h
    have hcan : ¬(m.canAddArg 4 = true) := by
      simp only [OSCMessage.canAddArg, Bool.and_eq_true, decide_eq_true_eq]
      omega
    rw [OSCMessage.addChar, if_neg hcan]
  · intro r g b a h
    have hcan : ¬(m.canAddArg 4 = true) := by
      simp only [OSCMessage.canAddArg, Bool.and_eq_true, decide_eq_true_eq]
      omega
    rw [OSCMessage.addColor, if_neg hcan]

theorem claim_C6_witness :
    OSCMessage.addTrue ⟨[47, 0, 0, 0], List.replicate 63 105, []⟩
      = (false, ⟨[47, 0, 0, 0], List.replicate 63 105, []⟩) :=
  (claim_C6 ⟨[47, 0, 0, 0], List.replicate 63 105, []⟩ (by decide)).2.2.2.2.2.2.2.1
    (Or.inl (by simp))

/-- **C7** (confirmed): the pattern matcher accepts
`"/synth/*"` against `"/synth/freq"` and `"/synth/"` but not
`"/other/freq"`; accepts `"/synth/?"` against `"/synth/1"` but not
`"/synth/12"`; the empty pattern matches exactly the empty input; and a
star-free pattern only matches inputs of exactly its own length (no
prefix matching). -/
theorem claim_C7 :
    matchPattern [47, 115, 121, 110, 116, 104, 47, 42]
        [47, 115, 121, 110, 116, 104, 47, 102, 114, 101, 113] = true
  ∧ matchPattern [47, 115, 121, 110, 116, 104, 47, 42]
        [47, 115, 121, 110, 116, 104, 47] = true
  ∧ matchPattern [47, 115, 121, 110, 116, 104, 47, 42]
        [47, 111, 116, 104, 101, 114, 47, 102, 114, 101, 113] = false
  ∧ matchPattern [47, 115, 121, 110, 116, 104, 47, 63]
        [47, 115, 121, 110, 116, 104, 47, 49] = true
  ∧ matchPattern [47, 115, 121, 110, 116, 104, 47, 63]
        [47, 115, 121, 110, 116, 104, 47, 49, 50] = false
  ∧ (∀ s : List Nat, matchPattern [] s = true ↔ s = [])
  ∧ (∀ p s : List Nat, (∀ c ∈ p, c ≠ 42) → matchPattern p s = true →
        p.length = s.length) := by
  refine ⟨?_, ?_, ?_, ?_, ?_, matchPattern_nil_iff,
    fun p s h hm => starFree_length p s h hm⟩
  all_goals simp [matchPattern, starLoop]

theorem claim_C7_witness :
    ([47, 100] : List Nat).length = ([47, 100] : List Nat).length :=
  claim_C7.2.2.2.2.2.2 [47, 100] [47, 100] (by decide) (by simp [matchPattern])

/-- **C8** (corrected): `setAddress` returns `false` exactly when the
raw string length WITHOUT the terminator reaches the 256-byte capacity
(`len >= MAX_ADDRESS_SIZE`); a 255-byte address is accepted even though
with its NUL terminator it fills 256 bytes.  On success it stores the
terminated string padded to a multiple of 4. -/
theorem claim_C8_amended (m : OSCMessage) (a : List Nat) :
    ((m.setAddress a).1 = false ↔ 256 ≤ a.length)
      ∧ (a.length < 256 →
          (m.setAddress a).2.mAddress = a ++ [0]
              ++ List.replicate (align4 (a.length + 1) - (a.length + 1)) 0
            ∧ (m.setAddress a).2.mAddress.length % 4 = 0
            ∧ (m.setAddress a).1 = true) :=
  setAddress_spec m a

theorem claim_C8_witness :
    (OSCMessage.cleared.setAddress [47, 97]).2.mAddress
        = [47, 97] ++ [0]
            ++ List.replicate (align4 (([47, 97] : List Nat).length + 1)
                - (([47, 97] : List Nat).length + 1)) 0
      ∧ (OSCMessage.cleared.setAddress [47, 97]).2.mAddress.length % 4 = 0
      ∧ (OSCMessage.cleared.setAddress [47, 97]).1 = true :=
  (claim_C8_amended OSCMessage.cleared [47, 97]).2 (by decide)

set_option maxRecDepth 40000 in
/-- **C8** counterexample: a 255-byte address has raw length including
its NUL terminator equal to 256, reaching the capacity, yet `setAddress`
accepts it and returns `true` (the code checks `len >= 256`, not
`len + 1 >= 256`). -/
theorem claim_C8_counterexample :
    256 ≤ (List.replicate 255 97).length + 1
      ∧ (OSCMessage.cleared.setAddress (List.replicate 255 97)).1 = true := by
  exact ⟨by decide, by decide⟩

/-- **C9** (confirmed): a type-tag character outside the recognized
alphabet `ifsSbhdtmcrTFNI` consumes zero payload bytes, is recorded as
an argument slot with no payload, does not fail the parse, and decoding
continues from the unchanged position; concretely, parsing a message
with tags `"zi"` succeeds with a payload-free `z` slot followed by the
decoded integer. -/
theorem claim_C9 :
    (∀ (buf : List Nat) (pos : Nat) (rest : List Nat) (args : List OSCArg) (c : Nat),
        c ≠ 105 ∧ c ≠ 102 ∧ c ≠ 115 ∧ c ≠ 83 ∧ c ≠ 98 ∧ c ≠ 104 ∧ c ≠ 100 ∧ c ≠ 116
          ∧ c ≠ 109 ∧ c ≠ 99 ∧ c ≠ 114 ∧ c ≠ 84 ∧ c ≠ 70 ∧ c ≠ 78 ∧ c ≠ 73 →
        args.length < 64 →
        parseArgs buf pos (c :: rest) args
          = parseArgs buf pos rest (args ++ [⟨c, OSCVal.noPayload⟩]))
      ∧ OSCMessageView.parse [47, 97, 0, 0, 44, 122, 105, 0, 0, 0, 0, 7]
          = (⟨some 0, CStrPtr.ofs 5,
              [⟨122, OSCVal.noPayload⟩, ⟨105, OSCVal.vi 7⟩]⟩, PStatus.ok) :=
  ⟨fun buf pos rest args c hc hlen => parseArgs_unknown buf pos rest args c hc hlen,
   by decide⟩

theorem claim_C9_witness :
    parseArgs [] 0 [122] [] = parseArgs [] 0 [] ([] ++ [⟨122, OSCVal.noPayload⟩]) :=
  claim_C9.1 [] 0 [] [] 122 (by decide) (by decide)

set_option maxRecDepth 40000 in
/-- **C10** (corrected): the argument loop decodes at most the first 64
declared tags — the remaining tags are ignored without consuming payload
— and when it completes, the argument count is `min (number of tags) 64`;
but the parse returns `true` only if those first 64 arguments all decode
successfully (`c10ok`), and fails otherwise (see the counterexample), so
a buffer declaring more than 64 arguments does not always parse
successfully. -/
theorem claim_C10_amended :
    (∀ (buf : List Nat) (pos : Nat) (types : List Nat),
        parseArgs buf pos types [] = parseArgs buf pos (types.take 64) [])
      ∧ (∀ (buf : List Nat) (pos : Nat) (types : List Nat) (args : List OSCArg),
          parseArgs buf pos types [] = ArgsRes.done args → args.length = min types.length 64)
      ∧ (readCStr c10ok 5).length = 65
      ∧ OSCMessageView.parse c10ok
          = (⟨some 0, CStrPtr.ofs 5,
              List.replicate 64 ⟨84, OSCVal.noPayload⟩⟩, PStatus.ok) := by
  refine ⟨?_, ?_, by decide, by decide⟩
  · intro buf pos types
    simpa using parseArgs_take64 types buf pos []
  · intro buf pos types args h
    simpa using parseArgs_done_length types buf pos [] args (by simp) h

theorem claim_C10_witness :
    ([⟨84, OSCVal.noPayload⟩] : List OSCArg).length = min ([84] : List Nat).length 64 :=
  claim_C10_amended.2.1 [] 0 [84] [⟨84, OSCVal.noPayload⟩] (by decide)

set_option maxRecDepth 40000 in
/-- **C10** counterexample: a buffer declaring 65 `i` tags with no
payload bytes: the type-tag string declares more than 64 arguments, but
`parse` returns `false` (the very first `i` fails its bounds check), not
`true` with 64 arguments. -/
theorem claim_C10_counterexample :
    (readCStr c10over 5).length = 65
      ∧ (OSCMessageView.parse c10over).2 = PStatus.fail := by
  exact ⟨by decide, by decide⟩

end picoosc
